import Mathlib

/-!
Verification of the zdx-world link-dashboard server.

The development shallowly embeds the JavaScript sources:

* `src/app.js`   — the Express server: card store handlers (`GET /api/cards`,
  `POST /api/cards`), the access-log middleware and error middleware, the log
  catalog (`GET /api/logs/files`) and the log reader (`GET /api/logs/:filename`);
* `src/sync.js`  — the GitHub remote-sync script (`githubRequest`, `sync`);
* `src/build.sh` — the embedded browser code: card id assignment on save
  (`saveCardBtn` handler) and the log analyzer (`parseAccessLogStats`,
  `updateStatsPanel`).

The card store serializes with `JSON.stringify(body, null, 2)` and reads back
with `JSON.parse`, so we model the JSON value space (with integer numerics, the
fragment the application data inhabits), the 2-space pretty printer, and a
`JSON.parse`-style parser, and prove the print/parse round trip that the
store's load/replace behaviour rests on.
-/

namespace ZdxWorld

/-- Left-brace character, written by code point to keep it out of literals. -/
def lbrace : Char := Char.ofNat 123

/-- Right-brace character. -/
def rbrace : Char := Char.ofNat 125

/-- JSON values as produced by `JSON.parse` / consumed by `JSON.stringify`
in `app.js`.  Numbers are modelled as integers: every number the application
stores (card ids) is integral, and this is the fragment the proofs use.
Objects are ordered field lists, matching JavaScript insertion order. -/
inductive Json where
  | null : Json
  | bool (b : Bool) : Json
  | num (n : Int) : Json
  | str (s : String) : Json
  | arr (elems : List Json) : Json
  | obj (fields : List (String × Json)) : Json

/-- Decimal digit character for a value below ten. -/
def digitChar : Nat → Char
  | 0 => '0' | 1 => '1' | 2 => '2' | 3 => '3' | 4 => '4'
  | 5 => '5' | 6 => '6' | 7 => '7' | 8 => '8' | _ => '9'

/-- Lower-case hexadecimal digit character, as `JSON.stringify` emits in
`\u00XX` escapes. -/
def hexChar : Nat → Char
  | 0 => '0' | 1 => '1' | 2 => '2' | 3 => '3' | 4 => '4'
  | 5 => '5' | 6 => '6' | 7 => '7' | 8 => '8' | 9 => '9'
  | 10 => 'a' | 11 => 'b' | 12 => 'c' | 13 => 'd' | 14 => 'e' | _ => 'f'

/-- Is the character an ASCII decimal digit? -/
def isDigitChar (c : Char) : Bool := '0' ≤ c && c ≤ '9'

/-- Numeric value of a decimal digit character. -/
def digitVal (c : Char) : Nat := c.toNat - 48

/-- Numeric value of a hexadecimal digit character (either case accepted,
as `JSON.parse` does). -/
def hexVal (c : Char) : Nat :=
  if c ≤ '9' then c.toNat - 48
  else if c ≤ 'F' then c.toNat - 55
  else c.toNat - 87

/-- Is the character a hexadecimal digit? -/
def isHexChar (c : Char) : Bool :=
  ('0' ≤ c && c ≤ '9') || ('a' ≤ c && c ≤ 'f') || ('A' ≤ c && c ≤ 'F')

/-- Decimal digits of `n`, most significant first, with explicit fuel so the
definition is structural (and hence kernel-evaluable). -/
def natCharsGo : Nat → Nat → List Char
  | 0, _ => []
  | fuel + 1, n =>
    if n < 10 then [digitChar n]
    else natCharsGo fuel (n / 10) ++ [digitChar (n % 10)]

/-- Decimal digit string of a natural number (`String(n)` in JavaScript). -/
def natChars (n : Nat) : List Char := natCharsGo (n + 1) n

/-- Decimal rendering of an integer, as `JSON.stringify` prints the integral
numbers this model covers. -/
def intChars (n : Int) : List Char :=
  if n < 0 then '-' :: natChars n.natAbs else natChars n.toNat

/-- Escape of one character inside a JSON string literal, following the
`QuoteJSONString` algorithm `JSON.stringify` uses: quote, backslash and the
named control escapes get two-character escapes, remaining control characters
become `\u00XX`, and everything else is emitted verbatim. -/
def escChar (c : Char) : List Char :=
  if c = '"' then ['\\', '"']
  else if c = '\\' then ['\\', '\\']
  else if c.toNat = 8 then ['\\', 'b']
  else if c.toNat = 9 then ['\\', 't']
  else if c.toNat = 10 then ['\\', 'n']
  else if c.toNat = 12 then ['\\', 'f']
  else if c.toNat = 13 then ['\\', 'r']
  else if c.toNat < 32 then ['\\', 'u', '0', '0', hexChar (c.toNat / 16), hexChar (c.toNat % 16)]
  else [c]

/-- Escape of a character sequence inside a JSON string literal. -/
def escChars : List Char → List Char
  | [] => []
  | c :: cs => escChar c ++ escChars cs

/-- A quoted JSON string literal: `"` body `"`. -/
def quoteChars (s : String) : List Char :=
  '"' :: escChars s.data ++ ['"']

/-- `k` spaces, the indentation `JSON.stringify(v, null, 2)` builds. -/
def spaces : Nat → List Char
  | 0 => []
  | k + 1 => ' ' :: spaces k

mutual

/-- Characters of `JSON.stringify(v, null, 2)` for a value sitting at
indentation depth `k`.  Empty arrays and objects print as `[]` / `{}`;
non-empty ones open the bracket, indent each member by `k + 2`, separate
members with `,\n`, and close the bracket back at depth `k`. -/
def strVal (k : Nat) : Json → List Char
  | .num n => intChars n
  | .str s => quoteChars s
  | .null => 'n' :: ['u', 'l', 'l']
  | .bool true => 't' :: ['r', 'u', 'e']
  | .bool false => 'f' :: ['a', 'l', 's', 'e']
  | .arr [] => ['[', ']']
  | .arr (e :: es) =>
    ('[' :: '\n' :: spaces (k + 2)) ++ strVal (k + 2) e ++ strArrRest (k + 2) es
      ++ ('\n' :: spaces k) ++ [']']
  | .obj [] => [lbrace, rbrace]
  | .obj (f :: fs) =>
    (lbrace :: '\n' :: spaces (k + 2)) ++ strField (k + 2) f ++ strObjRest (k + 2) fs
      ++ ('\n' :: spaces k) ++ [rbrace]

/-- The `,\n`-separated tail elements of a non-empty printed array. -/
def strArrRest (k : Nat) : List Json → List Char
  | [] => []
  | e :: es => (',' :: '\n' :: spaces k) ++ strVal k e ++ strArrRest k es

/-- One printed object member: quoted key, colon, space, value. -/
def strField (k : Nat) : String × Json → List Char
  | (key, v) => quoteChars key ++ (':' :: ' ' :: strVal k v)

/-- The `,\n`-separated tail members of a non-empty printed object. -/
def strObjRest (k : Nat) : List (String × Json) → List Char
  | [] => []
  | f :: fs => (',' :: '\n' :: spaces k) ++ strField k f ++ strObjRest k fs

end

/-- `JSON.stringify(v, null, 2)` as `app.js`'s card store calls it. -/
def stringify2 (j : Json) : String := ⟨strVal 0 j⟩

/-- JSON insignificant whitespace: space, tab, line feed, carriage return. -/
def isWsChar (c : Char) : Bool := c = ' ' || c = '\t' || c = '\n' || c = '\r'

/-- Drop leading JSON whitespace. -/
def skipWs : List Char → List Char
  | [] => []
  | c :: cs => if isWsChar c then skipWs cs else c :: cs

/-- Body of a JSON string literal after the opening quote: returns the decoded
characters and the input following the closing quote.  Mirrors the
`JSON.parse` string grammar: a closing quote ends the literal, backslash
introduces the two-character and `\uXXXX` escapes, raw control characters are
rejected.  (`\uXXXX` escapes naming surrogate halves fall outside Lean's
scalar-value `Char` and are rejected; the printer never emits them.) -/
def parseStrBody : List Char → Option (List Char × List Char)
  | [] => none
  | c :: cs =>
    if c = '"' then some ([], cs)
    else if c = '\\' then
      match cs with
      | [] => none
      | e :: cs2 =>
        if e = '"' then (parseStrBody cs2).map (fun p => ('"' :: p.1, p.2))
        else if e = '\\' then (parseStrBody cs2).map (fun p => ('\\' :: p.1, p.2))
        else if e = '/' then (parseStrBody cs2).map (fun p => ('/' :: p.1, p.2))
        else if e = 'b' then (parseStrBody cs2).map (fun p => (Char.ofNat 8 :: p.1, p.2))
        else if e = 't' then (parseStrBody cs2).map (fun p => ('\t' :: p.1, p.2))
        else if e = 'n' then (parseStrBody cs2).map (fun p => ('\n' :: p.1, p.2))
        else if e = 'f' then (parseStrBody cs2).map (fun p => (Char.ofNat 12 :: p.1, p.2))
        else if e = 'r' then (parseStrBody cs2).map (fun p => ('\r' :: p.1, p.2))
        else if e = 'u' then
          match cs2 with
          | h1 :: h2 :: h3 :: h4 :: cs3 =>
            if isHexChar h1 && isHexChar h2 && isHexChar h3 && isHexChar h4 then
              let n := ((hexVal h1 * 16 + hexVal h2) * 16 + hexVal h3) * 16 + hexVal h4
              if n.isValidChar then
                (parseStrBody cs3).map (fun p => (Char.ofNat n :: p.1, p.2))
              else none
            else none
          | _ => none
        else none
    else if c.toNat < 32 then none
    else (parseStrBody cs).map (fun p => (c :: p.1, p.2))

/-- Greedy decimal-digit accumulator of the number grammar. -/
def digitsLoop (acc : Nat) : List Char → Nat × List Char
  | [] => (acc, [])
  | c :: cs => if isDigitChar c then digitsLoop (acc * 10 + digitVal c) cs else (acc, c :: cs)

/-- JSON natural-number literal: a lone `0`, or a non-zero digit followed by
further digits (JSON forbids leading zeros). -/
def parseNatLit : List Char → Option (Nat × List Char)
  | [] => none
  | c :: cs =>
    if c = '0' then some (0, cs)
    else if isDigitChar c then some (digitsLoop (digitVal c) cs)
    else none

/-- JSON number literal over the integer fragment: optional minus sign and a
natural-number literal. -/
def parseNumLit : List Char → Option (Int × List Char)
  | [] => none
  | c :: cs =>
    if c = '-' then (parseNatLit cs).map (fun p => (-(p.1 : Int), p.2))
    else (parseNatLit (c :: cs)).map (fun p => ((p.1 : Int), p.2))

mutual

/-- `JSON.parse`-style value parser with explicit fuel (the fuel is a
termination device only; `parseJson` supplies more than any input can use).
Skips leading whitespace, then dispatches on the first character exactly as
the JSON value grammar does. -/
def parseVal : Nat → List Char → Option (Json × List Char)
  | 0, _ => none
  | fuel + 1, l =>
    match skipWs l with
    | [] => none
    | c :: r =>
      if c = 'n' then
        if r.take 3 = ['u', 'l', 'l'] then some (.null, r.drop 3) else none
      else if c = 't' then
        if r.take 3 = ['r', 'u', 'e'] then some (.bool true, r.drop 3) else none
      else if c = 'f' then
        if r.take 4 = ['a', 'l', 's', 'e'] then some (.bool false, r.drop 4) else none
      else if c = '"' then
        (parseStrBody r).map (fun p => (.str ⟨p.1⟩, p.2))
      else if c = '[' then
        let r1 := skipWs r
        if r1.head? = some ']' then some (.arr [], r1.tail)
        else (parseElems fuel r1).map (fun p => (.arr p.1, p.2))
      else if c = lbrace then
        let r1 := skipWs r
        if r1.head? = some rbrace then some (.obj [], r1.tail)
        else (parseFields fuel r1).map (fun p => (.obj p.1, p.2))
      else
        (parseNumLit (c :: r)).map (fun p => (.num p.1, p.2))

/-- Comma-separated array elements up to and including the closing bracket. -/
def parseElems : Nat → List Char → Option (List Json × List Char)
  | 0, _ => none
  | fuel + 1, l =>
    match parseVal fuel l with
    | none => none
    | some (e, r) =>
      let r1 := skipWs r
      if r1.head? = some ',' then
        (parseElems fuel r1.tail).map (fun p => (e :: p.1, p.2))
      else if r1.head? = some ']' then some ([e], r1.tail)
      else none

/-- Comma-separated object members up to and including the closing brace. -/
def parseFields : Nat → List Char → Option (List (String × Json) × List Char)
  | 0, _ => none
  | fuel + 1, l =>
    match skipWs l with
    | '"' :: r =>
      match parseStrBody r with
      | none => none
      | some (key, r1) =>
        match skipWs r1 with
        | ':' :: r2 =>
          match parseVal fuel r2 with
          | none => none
          | some (v, r3) =>
            let r4 := skipWs r3
            if r4.head? = some ',' then
              (parseFields fuel r4.tail).map (fun p => ((⟨key⟩, v) :: p.1, p.2))
            else if r4.head? = some rbrace then some ([(⟨key⟩, v)], r4.tail)
            else none
        | _ => none
    | _ => none

end

/-- `JSON.parse(s)`, restricted to the integer-numeric fragment: parse one
value, then require only trailing whitespace.  Returns `none` where
`JSON.parse` throws.  The fuel `2 * length + 2` dominates the recursion depth
any input of this length can demand (the round-trip proof below exhibits the
bound for printed values). -/
def parseJson (s : String) : Option Json :=
  match parseVal (2 * s.data.length + 2) s.data with
  | some (j, rest) => if skipWs rest = [] then some j else none
  | none => none

/-! ### Round trip: digits and numbers -/

/-- A list is whitespace-only. -/
def WsOnly (l : List Char) : Prop := ∀ c ∈ l, isWsChar c = true

/-- A list does not start with a decimal digit (so it cannot extend a number
literal that precedes it). -/
def NotDigitStart : List Char → Prop
  | [] => True
  | c :: _ => isDigitChar c = false

theorem digitVal_digitChar {d : Nat} (h : d < 10) : digitVal (digitChar d) = d := by
  interval_cases d <;> decide

theorem isDigitChar_digitChar {d : Nat} (h : d < 10) : isDigitChar (digitChar d) = true := by
  interval_cases d <;> decide

theorem digitChar_ne_zeroChar {d : Nat} (h0 : 0 < d) (h : d < 10) : digitChar d ≠ '0' := by
  interval_cases d <;> decide

theorem hexVal_hexChar {m : Nat} (h : m < 16) : hexVal (hexChar m) = m := by
  interval_cases m <;> decide

theorem isHexChar_hexChar {m : Nat} (h : m < 16) : isHexChar (hexChar m) = true := by
  interval_cases m <;> decide

/-- The characters a digit test accepts are the ten digit characters, hence
distinct from every dispatch character `parseVal` tests first. -/
theorem isDigitChar_toNat {c : Char} (h : isDigitChar c = true) :
    48 ≤ c.toNat ∧ c.toNat ≤ 57 := by
  simp only [isDigitChar, Bool.and_eq_true, decide_eq_true_eq] at h
  obtain ⟨h1, h2⟩ := h
  rw [Char.le_def] at h1 h2
  exact ⟨h1, h2⟩

theorem skipWs_append {pre l : List Char} (h : WsOnly pre) :
    skipWs (pre ++ l) = skipWs l := by
  induction pre with
  | nil => rfl
  | cons c cs ih =>
    have hc : isWsChar c = true := h c (List.mem_cons_self c cs)
    simp only [List.cons_append, skipWs, hc, if_true]
    exact ih (fun x hx => h x (List.mem_cons_of_mem c hx))

theorem skipWs_cons_of_not_ws {c : Char} {l : List Char} (h : isWsChar c = false) :
    skipWs (c :: l) = c :: l := by
  simp [skipWs, h]

theorem spaces_wsOnly (k : Nat) : WsOnly (spaces k) := by
  induction k with
  | zero => intro c hc; cases hc
  | succ k ih =>
    intro c hc
    cases hc with
    | head => rfl
    | tail _ h => exact ih c h

theorem wsOnly_newline_spaces (k : Nat) : WsOnly ('\n' :: spaces k) := by
  intro c hc
  cases hc with
  | head => rfl
  | tail _ h => exact spaces_wsOnly k c h

theorem digitsLoop_stop {acc : Nat} {l : List Char} (h : NotDigitStart l) :
    digitsLoop acc l = (acc, l) := by
  cases l with
  | nil => rfl
  | cons c cs => simp only [NotDigitStart] at h; simp [digitsLoop, h]

theorem natCharsGo_fuel {f1 f2 n : Nat} (h1 : n < f1) (h2 : n < f2) :
    natCharsGo f1 n = natCharsGo f2 n := by
  induction n using Nat.strong_induction_on generalizing f1 f2 with
  | _ n ih =>
    cases f1 with
    | zero => omega
    | succ g1 =>
      cases f2 with
      | zero => omega
      | succ g2 =>
        simp only [natCharsGo]
        by_cases hn : n < 10
        · simp [hn]
        · simp only [hn, if_false]
          have hd : n / 10 < n := Nat.div_lt_self (by omega) (by omega)
          rw [@ih (n / 10) hd g1 g2 (by omega) (by omega)]

theorem natChars_unfold {n : Nat} (h : 10 ≤ n) :
    natChars n = natChars (n / 10) ++ [digitChar (n % 10)] := by
  have hd : n / 10 < n := Nat.div_lt_self (by omega) (by omega)
  show natCharsGo (n + 1) n = _
  simp only [natCharsGo, if_neg (show ¬ n < 10 by omega)]
  congr 1
  exact @natCharsGo_fuel n (n / 10 + 1) (n / 10) (by omega) (by omega)

theorem natChars_small {n : Nat} (h : n < 10) : natChars n = [digitChar n] := by
  simp [natChars, natCharsGo, h]

/-- Reading the printed digits of `n` continues the accumulator with `n`. -/
theorem digitsLoop_natChars (n : Nat) : ∀ (acc : Nat) (rest : List Char),
    digitsLoop acc (natChars n ++ rest) =
      digitsLoop (acc * 10 ^ (natChars n).length + n) rest := by
  induction n using Nat.strong_induction_on with
  | _ n ih =>
    intro acc rest
    by_cases hn : n < 10
    · rw [natChars_small hn]
      simp [digitsLoop, isDigitChar_digitChar hn, digitVal_digitChar hn]
    · have h10 : 10 ≤ n := by omega
      have hd : n / 10 < n := Nat.div_lt_self (by omega) (by omega)
      rw [natChars_unfold h10, List.append_assoc, ih (n / 10) hd acc,
        List.singleton_append]
      have hm : n % 10 < 10 := Nat.mod_lt _ (by omega)
      simp only [digitsLoop, isDigitChar_digitChar hm, if_true,
        digitVal_digitChar hm, List.length_append, List.length_singleton]
      congr 1
      have : (acc * 10 ^ (natChars (n / 10)).length + n / 10) * 10 + n % 10 =
          acc * (10 ^ (natChars (n / 10)).length * 10) + (n / 10 * 10 + n % 10) := by ring
      rw [this, Nat.div_add_mod', ← pow_succ]

/-- The head of the printed digits of a positive number: a digit other
than `'0'`. -/
theorem natChars_head (n : Nat) :
    ∃ c cs, natChars n = c :: cs ∧ isDigitChar c = true ∧ (0 < n → c ≠ '0') := by
  induction n using Nat.strong_induction_on with
  | _ n ih =>
    by_cases hn : n < 10
    · refine ⟨digitChar n, [], natChars_small hn, isDigitChar_digitChar hn, ?_⟩
      intro h0
      exact digitChar_ne_zeroChar h0 hn
    · have h10 : 10 ≤ n := by omega
      have hd : n / 10 < n := Nat.div_lt_self (by omega) (by omega)
      obtain ⟨c, cs, hcs, hdig, hz⟩ := ih (n / 10) hd
      refine ⟨c, cs ++ [digitChar (n % 10)], ?_, hdig, ?_⟩
      · rw [natChars_unfold h10, hcs]; rfl
      · intro _
        exact hz (by omega)

theorem ne_of_digit {c : Char} (h : isDigitChar c = true) {d : Char}
    (hd : d.toNat < 48 ∨ 57 < d.toNat) : c ≠ d := by
  obtain ⟨h1, h2⟩ := isDigitChar_toNat h
  intro he
  subst he
  omega

theorem parseNatLit_natChars (m : Nat) (rest : List Char) (h : NotDigitStart rest) :
    parseNatLit (natChars m ++ rest) = some (m, rest) := by
  by_cases hm : m = 0
  · subst hm
    rw [natChars_small (by omega)]
    simp [parseNatLit, digitChar]
  · obtain ⟨c, cs, hcs, hdig, hz⟩ := natChars_head m
    rw [hcs, List.cons_append]
    simp only [parseNatLit, if_neg (hz (by omega)), hdig, if_true]
    have step : digitsLoop (digitVal c) (cs ++ rest) = digitsLoop 0 ((c :: cs) ++ rest) := by
      simp [digitsLoop, hdig]
    rw [step, ← hcs, digitsLoop_natChars, Nat.zero_mul, Nat.zero_add,
      digitsLoop_stop h]

theorem parseNumLit_intChars (n : Int) (rest : List Char) (h : NotDigitStart rest) :
    parseNumLit (intChars n ++ rest) = some (n, rest) := by
  by_cases hn : n < 0
  · simp only [intChars, if_pos hn, List.cons_append, parseNumLit, if_pos rfl]
    rw [parseNatLit_natChars _ _ h]
    simp only [Option.map_some']
    have hval : (-(n.natAbs : Int)) = n := by omega
    rw [hval]
    simp
  · simp only [intChars, if_neg hn]
    obtain ⟨c, cs, hcs, hdig, _⟩ := natChars_head n.toNat
    rw [hcs, List.cons_append]
    simp only [parseNumLit, if_neg (@ne_of_digit c hdig '-' (by decide))]
    rw [← List.cons_append, ← hcs, parseNatLit_natChars _ _ h]
    simp only [Option.map_some']
    have hval : ((n.toNat : Int)) = n := by omega
    rw [hval]

/-! ### Sizes, chains and dispatch facts for the value round trip -/

mutual

/-- Fuel measure of a value: bounds the `parseVal` fuel its parse consumes. -/
def jsizeV : Json → Nat
  | .null => 1
  | .bool _ => 1
  | .num _ => 1
  | .str _ => 1
  | .arr es => 1 + jsizeL es
  | .obj fs => 1 + jsizeF fs

/-- Fuel measure of an element list. -/
def jsizeL : List Json → Nat
  | [] => 0
  | e :: es => 1 + jsizeV e + jsizeL es

/-- Fuel measure of a field list. -/
def jsizeF : List (String × Json) → Nat
  | [] => 0
  | f :: fs => 1 + jsizeV f.2 + jsizeF fs

end

theorem jsizeV_pos (j : Json) : 1 ≤ jsizeV j := by
  cases j <;> (simp only [jsizeV]; omega)

/-- The input a `parseElems` call inside a printed array sees: the first
element at indent `k`, the remaining elements, the newline-and-indent before
the closing bracket at indent `k2`, the bracket, then `rest`. -/
def chainE (k k2 : Nat) (es : List Json) (rest : List Char) : List Char :=
  match es with
  | [] => '\n' :: (spaces k2 ++ (']' :: rest))
  | e :: es' => strVal k e ++ (strArrRest k es' ++ ('\n' :: (spaces k2 ++ (']' :: rest))))

/-- The input a `parseFields` call inside a printed object sees. -/
def chainF (k k2 : Nat) (fs : List (String × Json)) (rest : List Char) : List Char :=
  match fs with
  | [] => '\n' :: (spaces k2 ++ (rbrace :: rest))
  | f :: fs' => strField k f ++ (strObjRest k fs' ++ ('\n' :: (spaces k2 ++ (rbrace :: rest))))

theorem not_ws_of_digit {c : Char} (h : isDigitChar c = true) : isWsChar c = false := by
  obtain ⟨h1, h2⟩ := isDigitChar_toNat h
  simp only [isWsChar, Bool.or_eq_false_iff, decide_eq_false_iff_not]
  refine ⟨⟨⟨fun he => ?_, fun he => ?_⟩, fun he => ?_⟩, fun he => ?_⟩ <;>
    (subst he; revert h1 h2; decide)

/-- Every printed value starts with a character that is not whitespace and is
not a closing bracket. -/
theorem strVal_cons (k : Nat) (j : Json) :
    ∃ c cs, strVal k j = c :: cs ∧ isWsChar c = false ∧ c ≠ ']' ∧ c ≠ rbrace := by
  cases j with
  | num n =>
    show ∃ c cs, intChars n = c :: cs ∧ _
    by_cases hn : n < 0
    · refine ⟨'-', _, by rw [intChars, if_pos hn], ?_, ?_, ?_⟩ <;> decide
    · obtain ⟨c, cs, hcs, hdig, _⟩ := natChars_head n.toNat
      refine ⟨c, cs, by rw [intChars, if_neg hn, hcs], not_ws_of_digit hdig,
        @ne_of_digit c hdig ']' (by decide), @ne_of_digit c hdig rbrace (by decide)⟩
  | bool b =>
    cases b with
    | true => refine ⟨'t', _, rfl, ?_, ?_, ?_⟩ <;> decide
    | false => refine ⟨'f', _, rfl, ?_, ?_, ?_⟩ <;> decide
  | null => refine ⟨'n', _, rfl, ?_, ?_, ?_⟩ <;> decide
  | str s => refine ⟨'"', _, rfl, ?_, ?_, ?_⟩ <;> decide
  | arr es =>
    cases es with
    | nil => refine ⟨'[', [']'], rfl, ?_, ?_, ?_⟩ <;> decide
    | cons e es => refine ⟨'[', _, rfl, ?_, ?_, ?_⟩ <;> decide
  | obj fs =>
    cases fs with
    | nil => refine ⟨lbrace, [rbrace], rfl, ?_, ?_, ?_⟩ <;> decide
    | cons f fs => refine ⟨lbrace, _, rfl, ?_, ?_, ?_⟩ <;> decide

/-! Dispatch lemmas: one per `parseVal` branch, with the scrutinee rewritten.
The three `..._succ` equations restate the parser bodies at successor fuel;
they hold by definitional unfolding. -/

theorem parseVal_succ (fuel : Nat) (l : List Char) :
    parseVal (fuel + 1) l =
      match skipWs l with
      | [] => none
      | c :: r =>
        if c = 'n' then
          if r.take 3 = ['u', 'l', 'l'] then some (.null, r.drop 3) else none
        else if c = 't' then
          if r.take 3 = ['r', 'u', 'e'] then some (.bool true, r.drop 3) else none
        else if c = 'f' then
          if r.take 4 = ['a', 'l', 's', 'e'] then some (.bool false, r.drop 4) else none
        else if c = '"' then
          (parseStrBody r).map (fun p => (.str ⟨p.1⟩, p.2))
        else if c = '[' then
          let r1 := skipWs r
          if r1.head? = some ']' then some (.arr [], r1.tail)
          else (parseElems fuel r1).map (fun p => (.arr p.1, p.2))
        else if c = lbrace then
          let r1 := skipWs r
          if r1.head? = some rbrace then some (.obj [], r1.tail)
          else (parseFields fuel r1).map (fun p => (.obj p.1, p.2))
        else
          (parseNumLit (c :: r)).map (fun p => (.num p.1, p.2)) := rfl

theorem parseElems_succ (fuel : Nat) (l : List Char) :
    parseElems (fuel + 1) l =
      match parseVal fuel l with
      | none => none
      | some (e, r) =>
        let r1 := skipWs r
        if r1.head? = some ',' then
          (parseElems fuel r1.tail).map (fun p => (e :: p.1, p.2))
        else if r1.head? = some ']' then some ([e], r1.tail)
        else none := rfl

theorem parseFields_succ (fuel : Nat) (l : List Char) :
    parseFields (fuel + 1) l =
      match skipWs l with
      | '"' :: r =>
        match parseStrBody r with
        | none => none
        | some (key, r1) =>
          match skipWs r1 with
          | ':' :: r2 =>
            match parseVal fuel r2 with
            | none => none
            | some (v, r3) =>
              let r4 := skipWs r3
              if r4.head? = some ',' then
                (parseFields fuel r4.tail).map (fun p => ((⟨key⟩, v) :: p.1, p.2))
              else if r4.head? = some rbrace then some ([(⟨key⟩, v)], r4.tail)
              else none
          | _ => none
      | _ => none := rfl

theorem pv_null {fuel : Nat} {l rest : List Char}
    (h : skipWs l = 'n' :: 'u' :: 'l' :: 'l' :: rest) :
    parseVal (fuel + 1) l = some (.null, rest) := by
  rw [parseVal_succ, h]
  simp

theorem pv_true {fuel : Nat} {l rest : List Char}
    (h : skipWs l = 't' :: 'r' :: 'u' :: 'e' :: rest) :
    parseVal (fuel + 1) l = some (.bool true, rest) := by
  rw [parseVal_succ, h]
  simp

theorem pv_false {fuel : Nat} {l rest : List Char}
    (h : skipWs l = 'f' :: 'a' :: 'l' :: 's' :: 'e' :: rest) :
    parseVal (fuel + 1) l = some (.bool false, rest) := by
  rw [parseVal_succ, h]
  simp

theorem pv_str {fuel : Nat} {l r : List Char} (h : skipWs l = '"' :: r) :
    parseVal (fuel + 1) l = (parseStrBody r).map (fun p => (.str ⟨p.1⟩, p.2)) := by
  rw [parseVal_succ, h]
  simp

theorem pv_num {fuel : Nat} {l : List Char} {c : Char} {r : List Char}
    (h : skipWs l = c :: r) (hc : c = '-' ∨ isDigitChar c = true) :
    parseVal (fuel + 1) l = (parseNumLit (c :: r)).map (fun p => (.num p.1, p.2)) := by
  rw [parseVal_succ, h]
  cases hc with
  | inl hm => subst hm; simp [show ('-' : Char) ≠ lbrace from by decide]
  | inr hd =>
    simp only [if_neg (@ne_of_digit c hd 'n' (by decide)),
      if_neg (@ne_of_digit c hd 't' (by decide)),
      if_neg (@ne_of_digit c hd 'f' (by decide)),
      if_neg (@ne_of_digit c hd '"' (by decide)),
      if_neg (@ne_of_digit c hd '[' (by decide)),
      if_neg (@ne_of_digit c hd lbrace (by decide))]

theorem pv_arrEmpty {fuel : Nat} {l r r2 : List Char}
    (h : skipWs l = '[' :: r) (h2 : skipWs r = ']' :: r2) :
    parseVal (fuel + 1) l = some (.arr [], r2) := by
  rw [parseVal_succ, h]
  simp [h2]

theorem pv_arr {fuel : Nat} {l r : List Char} {c : Char} {r1 : List Char}
    (h : skipWs l = '[' :: r) (h2 : skipWs r = c :: r1) (h3 : c ≠ ']') :
    parseVal (fuel + 1) l = (parseElems fuel (c :: r1)).map (fun p => (.arr p.1, p.2)) := by
  rw [parseVal_succ, h]
  simp [h2, h3]

theorem pv_objEmpty {fuel : Nat} {l r r2 : List Char}
    (h : skipWs l = lbrace :: r) (h2 : skipWs r = rbrace :: r2) :
    parseVal (fuel + 1) l = some (.obj [], r2) := by
  rw [parseVal_succ, h]
  simp [h2, show lbrace ≠ 'n' from by decide, show lbrace ≠ 't' from by decide,
    show lbrace ≠ 'f' from by decide, show lbrace ≠ '"' from by decide,
    show lbrace ≠ '[' from by decide]

theorem pv_obj {fuel : Nat} {l r : List Char} {c : Char} {r1 : List Char}
    (h : skipWs l = lbrace :: r) (h2 : skipWs r = c :: r1) (h3 : c ≠ rbrace) :
    parseVal (fuel + 1) l = (parseFields fuel (c :: r1)).map (fun p => (.obj p.1, p.2)) := by
  rw [parseVal_succ, h]
  simp [h2, h3, show lbrace ≠ 'n' from by decide, show lbrace ≠ 't' from by decide,
    show lbrace ≠ 'f' from by decide, show lbrace ≠ '"' from by decide,
    show lbrace ≠ '[' from by decide]

theorem pe_comma {fuel : Nat} {l : List Char} {e : Json} {r r2 : List Char}
    (h : parseVal fuel l = some (e, r)) (h2 : skipWs r = ',' :: r2) :
    parseElems (fuel + 1) l = (parseElems fuel r2).map (fun p => (e :: p.1, p.2)) := by
  rw [parseElems_succ, h]
  simp [h2]

theorem pe_close {fuel : Nat} {l : List Char} {e : Json} {r r2 : List Char}
    (h : parseVal fuel l = some (e, r)) (h2 : skipWs r = ']' :: r2) :
    parseElems (fuel + 1) l = some ([e], r2) := by
  rw [parseElems_succ, h]
  simp [h2]

theorem pf_comma {fuel : Nat} {l r : List Char} {key : List Char} {r1 r2 : List Char}
    {v : Json} {r3 r4 : List Char}
    (h : skipWs l = '"' :: r) (hk : parseStrBody r = some (key, r1))
    (hc : skipWs r1 = ':' :: r2) (hv : parseVal fuel r2 = some (v, r3))
    (h2 : skipWs r3 = ',' :: r4) :
    parseFields (fuel + 1) l = (parseFields fuel r4).map (fun p => ((⟨key⟩, v) :: p.1, p.2)) := by
  rw [parseFields_succ, h]
  simp [hk, hc, hv, h2]

theorem pf_close {fuel : Nat} {l r : List Char} {key : List Char} {r1 r2 : List Char}
    {v : Json} {r3 r4 : List Char}
    (h : skipWs l = '"' :: r) (hk : parseStrBody r = some (key, r1))
    (hc : skipWs r1 = ':' :: r2) (hv : parseVal fuel r2 = some (v, r3))
    (h2 : skipWs r3 = rbrace :: r4) :
    parseFields (fuel + 1) l = some ([(⟨key⟩, v)], r4) := by
  rw [parseFields_succ, h]
  simp [hk, hc, hv, h2, show rbrace ≠ ',' from by decide]

theorem wsOnly_nil : WsOnly [] := fun c hc => absurd hc (List.not_mem_nil c)

theorem wsOnly_space : WsOnly [' '] := by
  intro c hc
  cases hc with
  | head => rfl
  | tail _ h => cases h

theorem nds_of_head {c : Char} {l : List Char} (h : isDigitChar c = false) :
    NotDigitStart (c :: l) := h

/-! ### Round trip: string literals -/

theorem psb_quote (rest : List Char) : parseStrBody ('"' :: rest) = some ([], rest) := by
  rw [parseStrBody.eq_def]; simp

theorem psb_escQuote (rest : List Char) :
    parseStrBody ('\\' :: '"' :: rest) = (parseStrBody rest).map (fun p => ('"' :: p.1, p.2)) := by
  rw [parseStrBody.eq_def]; simp

theorem psb_escBackslash (rest : List Char) :
    parseStrBody ('\\' :: '\\' :: rest) =
      (parseStrBody rest).map (fun p => ('\\' :: p.1, p.2)) := by
  rw [parseStrBody.eq_def]; simp

theorem psb_escB (rest : List Char) :
    parseStrBody ('\\' :: 'b' :: rest) =
      (parseStrBody rest).map (fun p => (Char.ofNat 8 :: p.1, p.2)) := by
  rw [parseStrBody.eq_def]; simp

theorem psb_escT (rest : List Char) :
    parseStrBody ('\\' :: 't' :: rest) =
      (parseStrBody rest).map (fun p => ('\t' :: p.1, p.2)) := by
  rw [parseStrBody.eq_def]; simp

theorem psb_escN (rest : List Char) :
    parseStrBody ('\\' :: 'n' :: rest) =
      (parseStrBody rest).map (fun p => ('\n' :: p.1, p.2)) := by
  rw [parseStrBody.eq_def]; simp

theorem psb_escF (rest : List Char) :
    parseStrBody ('\\' :: 'f' :: rest) =
      (parseStrBody rest).map (fun p => (Char.ofNat 12 :: p.1, p.2)) := by
  rw [parseStrBody.eq_def]; simp

theorem psb_escR (rest : List Char) :
    parseStrBody ('\\' :: 'r' :: rest) =
      (parseStrBody rest).map (fun p => ('\x0d' :: p.1, p.2)) := by
  rw [parseStrBody.eq_def]; simp

theorem psb_other {c : Char} (rest : List Char) (h1 : ¬ c = '"') (h2 : ¬ c = '\\')
    (h3 : ¬ c.toNat < 32) :
    parseStrBody (c :: rest) = (parseStrBody rest).map (fun p => (c :: p.1, p.2)) := by
  rw [parseStrBody.eq_def]
  simp [h1, h2, h3]

theorem psb_unicode {h1 h2 h3 h4 : Char} (rest : List Char)
    (hx1 : isHexChar h1 = true) (hx2 : isHexChar h2 = true)
    (hx3 : isHexChar h3 = true) (hx4 : isHexChar h4 = true)
    (hv : (((hexVal h1 * 16 + hexVal h2) * 16 + hexVal h3) * 16 + hexVal h4).isValidChar) :
    parseStrBody ('\\' :: 'u' :: h1 :: h2 :: h3 :: h4 :: rest) =
      (parseStrBody rest).map (fun p =>
        (Char.ofNat (((hexVal h1 * 16 + hexVal h2) * 16 + hexVal h3) * 16 + hexVal h4)
          :: p.1, p.2)) := by
  rw [parseStrBody.eq_def]
  simp [hx1, hx2, hx3, hx4, hv]

theorem parseStrBody_escChars : ∀ (cs rest : List Char),
    parseStrBody (escChars cs ++ '"' :: rest) = some (cs, rest) := by
  intro cs
  induction cs with
  | nil => intro rest; exact psb_quote rest
  | cons c cs ih =>
    intro rest
    show parseStrBody ((escChar c ++ escChars cs) ++ '"' :: rest) = _
    rw [List.append_assoc]
    by_cases g1 : c = '"'
    · subst g1
      show parseStrBody ('\\' :: '"' :: _) = _
      rw [psb_escQuote]; simp only [List.append_eq, List.nil_append]; rw [ih]
      rfl
    · by_cases g2 : c = '\\'
      · subst g2
        show parseStrBody ('\\' :: '\\' :: _) = _
        rw [psb_escBackslash]; simp only [List.append_eq, List.nil_append]; rw [ih]
        rfl
      · by_cases g3 : c.toNat = 8
        · have hc : Char.ofNat 8 = c := by rw [← g3]; exact Char.ofNat_toNat c
          have hesc : escChar c = ['\\', 'b'] := by simp [escChar, g1, g2, g3]
          rw [hesc]
          show parseStrBody ('\\' :: 'b' :: _) = _
          rw [psb_escB]; simp only [List.append_eq, List.nil_append]; rw [ih, hc]
          rfl
        · by_cases g4 : c.toNat = 9
          · have hc : Char.ofNat 9 = c := by rw [← g4]; exact Char.ofNat_toNat c
            have hesc : escChar c = ['\\', 't'] := by simp [escChar, g1, g2, g3, g4]
            rw [hesc]
            show parseStrBody ('\\' :: 't' :: _) = _
            rw [psb_escT]; simp only [List.append_eq, List.nil_append]; rw [ih, show '\t' = c from hc]
            rfl
          · by_cases g5 : c.toNat = 10
            · have hc : Char.ofNat 10 = c := by rw [← g5]; exact Char.ofNat_toNat c
              have hesc : escChar c = ['\\', 'n'] := by simp [escChar, g1, g2, g3, g4, g5]
              rw [hesc]
              show parseStrBody ('\\' :: 'n' :: _) = _
              rw [psb_escN]; simp only [List.append_eq, List.nil_append]; rw [ih, show '\n' = c from hc]
              rfl
            · by_cases g6 : c.toNat = 12
              · have hc : Char.ofNat 12 = c := by rw [← g6]; exact Char.ofNat_toNat c
                have hesc : escChar c = ['\\', 'f'] := by simp [escChar, g1, g2, g3, g4, g5, g6]
                rw [hesc]
                show parseStrBody ('\\' :: 'f' :: _) = _
                rw [psb_escF]; simp only [List.append_eq, List.nil_append]; rw [ih, hc]
                rfl
              · by_cases g7 : c.toNat = 13
                · have hc : Char.ofNat 13 = c := by rw [← g7]; exact Char.ofNat_toNat c
                  have hesc : escChar c = ['\\', 'r'] := by
                    simp [escChar, g1, g2, g3, g4, g5, g6, g7]
                  rw [hesc]
                  show parseStrBody ('\\' :: 'r' :: _) = _
                  rw [psb_escR]; simp only [List.append_eq, List.nil_append]; rw [ih, show '\x0d' = c from hc]
                  rfl
                · by_cases g8 : c.toNat < 32
                  · have hdiv : c.toNat / 16 < 16 := by omega
                    have hmod : c.toNat % 16 < 16 := Nat.mod_lt _ (by omega)
                    have hesc : escChar c =
                        ['\\', 'u', '0', '0', hexChar (c.toNat / 16), hexChar (c.toNat % 16)] := by
                      simp [escChar, g1, g2, g3, g4, g5, g6, g7, g8]
                    have hrebuild :
                        ((hexVal '0' * 16 + hexVal '0') * 16 + hexVal (hexChar (c.toNat / 16)))
                            * 16 + hexVal (hexChar (c.toNat % 16)) = c.toNat := by
                      rw [hexVal_hexChar hdiv, hexVal_hexChar hmod,
                        show hexVal '0' = 0 from by decide]
                      omega
                    rw [hesc]
                    show parseStrBody ('\\' :: 'u' :: '0' :: '0' :: _ :: _ :: _) = _
                    rw [psb_unicode _ (by decide) (by decide) (isHexChar_hexChar hdiv)
                      (isHexChar_hexChar hmod) (by rw [hrebuild]; exact Or.inl (by omega))]
                    simp only [List.append_eq, List.nil_append]
                    rw [ih]
                    simp [hrebuild, Char.ofNat_toNat]
                  · have hesc : escChar c = [c] := by
                      simp [escChar, g1, g2, g3, g4, g5, g6, g7, g8]
                    rw [hesc]
                    show parseStrBody (c :: _) = _
                    rw [psb_other _ g1 g2 g8]; simp only [List.append_eq, List.nil_append]; rw [ih]
                    rfl


/-! ### Round trip: the master induction over fuel -/

/-- Parsing a printed value (preceded by optional whitespace, followed by a
suffix that cannot extend a number literal) recovers exactly the value, and
likewise for the element and field chains of printed arrays and objects. -/
theorem masterRoundTrip : ∀ fuel : Nat,
    (∀ (j : Json) (k : Nat) (pre rest : List Char), jsizeV j ≤ fuel → WsOnly pre →
      NotDigitStart rest →
      parseVal fuel (pre ++ (strVal k j ++ rest)) = some (j, rest)) ∧
    (∀ (es : List Json) (k k2 : Nat) (pre rest : List Char), es ≠ [] → jsizeL es ≤ fuel →
      WsOnly pre →
      parseElems fuel (pre ++ chainE k k2 es rest) = some (es, rest)) ∧
    (∀ (fs : List (String × Json)) (k k2 : Nat) (pre rest : List Char), fs ≠ [] →
      jsizeF fs ≤ fuel → WsOnly pre →
      parseFields fuel (pre ++ chainF k k2 fs rest) = some (fs, rest)) := by
  intro fuel
  induction fuel with
  | zero =>
    refine ⟨fun j _ _ _ hsz _ _ => ?_, fun es _ _ _ _ hne hsz _ => ?_,
      fun fs _ _ _ _ hne hsz _ => ?_⟩
    · exact absurd hsz (by have := jsizeV_pos j; omega)
    · cases es with
      | nil => exact absurd rfl hne
      | cons e es => exact absurd hsz (by simp only [jsizeL]; omega)
    · cases fs with
      | nil => exact absurd rfl hne
      | cons f fs => exact absurd hsz (by simp only [jsizeF]; omega)
  | succ fuel ih =>
    obtain ⟨ihV, ihE, ihF⟩ := ih
    refine ⟨?_, ?_, ?_⟩
    · -- values
      intro j k pre rest hsz hpre hrest
      have base : skipWs (pre ++ (strVal k j ++ rest)) = skipWs (strVal k j ++ rest) :=
        skipWs_append hpre
      cases j with
      | null =>
        exact pv_null (by rw [base]; exact skipWs_cons_of_not_ws (by decide))
      | bool b =>
        cases b with
        | true => exact pv_true (by rw [base]; exact skipWs_cons_of_not_ws (by decide))
        | false => exact pv_false (by rw [base]; exact skipWs_cons_of_not_ws (by decide))
      | str s =>
        have h1 : skipWs (pre ++ (strVal k (.str s) ++ rest)) =
            '"' :: ((escChars s.data ++ ['"']) ++ rest) := by
          rw [base]; exact skipWs_cons_of_not_ws (by decide)
        rw [pv_str h1, List.append_assoc, List.singleton_append, parseStrBody_escChars]
        rfl
      | num n =>
        by_cases hn : n < 0
        · have hic : strVal k (.num n) = '-' :: natChars n.natAbs := by
            show intChars n = _
            rw [intChars, if_pos hn]
          have h1 : skipWs (pre ++ (strVal k (.num n) ++ rest)) =
              '-' :: (natChars n.natAbs ++ rest) := by
            rw [base, hic]
            exact skipWs_cons_of_not_ws (by decide)
          rw [pv_num h1 (Or.inl rfl),
            show '-' :: (natChars n.natAbs ++ rest) = intChars n ++ rest by
              rw [intChars, if_pos hn]; rfl,
            parseNumLit_intChars n rest hrest]
          rfl
        · obtain ⟨c, cs, hcs, hdig, _⟩ := natChars_head n.toNat
          have hic : strVal k (.num n) = c :: cs := by
            show intChars n = _
            rw [intChars, if_neg hn, hcs]
          have h1 : skipWs (pre ++ (strVal k (.num n) ++ rest)) = c :: (cs ++ rest) := by
            rw [base, hic]
            exact skipWs_cons_of_not_ws (not_ws_of_digit hdig)
          rw [pv_num h1 (Or.inr hdig),
            show c :: (cs ++ rest) = intChars n ++ rest by
              rw [intChars, if_neg hn, hcs]; rfl,
            parseNumLit_intChars n rest hrest]
          rfl
      | arr es =>
        cases es with
        | nil =>
          have h2 : skipWs (']' :: rest) = ']' :: rest := skipWs_cons_of_not_ws (by decide)
          have h1 : skipWs (pre ++ (strVal k (.arr []) ++ rest)) = '[' :: (']' :: rest) := by
            rw [base]; exact skipWs_cons_of_not_ws (by decide)
          exact pv_arrEmpty h1 h2
        | cons e es =>
          obtain ⟨c, cs, hcons, hnws, hne1, _⟩ := strVal_cons (k + 2) e
          have hchain : chainE (k + 2) k (e :: es) rest = c :: (cs ++
              (strArrRest (k + 2) es ++ ('\n' :: (spaces k ++ (']' :: rest))))) := by
            show strVal (k + 2) e ++ _ = _
            rw [hcons]
            rfl
          have h1 : skipWs (pre ++ (strVal k (.arr (e :: es)) ++ rest)) =
              '[' :: (('\n' :: spaces (k + 2)) ++ chainE (k + 2) k (e :: es) rest) := by
            rw [base]
            have hs : strVal k (.arr (e :: es)) ++ rest =
                '[' :: (('\n' :: spaces (k + 2)) ++ chainE (k + 2) k (e :: es) rest) := by
              show (('[' :: '\n' :: spaces (k + 2)) ++ strVal (k + 2) e ++
                  strArrRest (k + 2) es ++ ('\n' :: spaces k) ++ [']']) ++ rest = _
              simp [chainE, List.append_assoc]
            rw [hs]
            exact skipWs_cons_of_not_ws (by decide)
          have h2 : skipWs (('\n' :: spaces (k + 2)) ++ chainE (k + 2) k (e :: es) rest) =
              c :: (cs ++ (strArrRest (k + 2) es ++ ('\n' :: (spaces k ++ (']' :: rest))))) := by
            rw [skipWs_append (wsOnly_newline_spaces (k + 2)), hchain]
            exact skipWs_cons_of_not_ws hnws
          rw [pv_arr h1 h2 hne1]
          have hE := ihE (e :: es) (k + 2) k [] rest (by simp)
            (by simp only [jsizeV] at hsz; omega) wsOnly_nil
          rw [List.nil_append, hchain] at hE
          rw [hE]
          rfl
      | obj fs =>
        cases fs with
        | nil =>
          have h2 : skipWs (rbrace :: rest) = rbrace :: rest :=
            skipWs_cons_of_not_ws (by decide)
          have h1 : skipWs (pre ++ (strVal k (.obj []) ++ rest)) = lbrace :: (rbrace :: rest) := by
            rw [base]; exact skipWs_cons_of_not_ws (by decide)
          exact pv_objEmpty h1 h2
        | cons f fs =>
          obtain ⟨key, v⟩ := f
          have hchain : chainF (k + 2) k ((key, v) :: fs) rest =
              '"' :: ((escChars key.data ++ ['"']) ++
              ((':' :: ' ' :: strVal (k + 2) v) ++
                (strObjRest (k + 2) fs ++ ('\n' :: (spaces k ++ (rbrace :: rest)))))) := by
            show (quoteChars key ++ (':' :: ' ' :: strVal (k + 2) v)) ++ _ = _
            simp [quoteChars, List.append_assoc]
          have h1 : skipWs (pre ++ (strVal k (.obj ((key, v) :: fs)) ++ rest)) =
              lbrace :: (('\n' :: spaces (k + 2)) ++ chainF (k + 2) k ((key, v) :: fs) rest) := by
            rw [base]
            have hs : strVal k (.obj ((key, v) :: fs)) ++ rest =
                lbrace :: (('\n' :: spaces (k + 2)) ++ chainF (k + 2) k ((key, v) :: fs) rest) := by
              show ((lbrace :: '\n' :: spaces (k + 2)) ++ strField (k + 2) (key, v) ++
                  strObjRest (k + 2) fs ++ ('\n' :: spaces k) ++ [rbrace]) ++ rest = _
              simp [chainF, strField, quoteChars, List.append_assoc]
            rw [hs]
            exact skipWs_cons_of_not_ws (by decide)
          have h2 : skipWs (('\n' :: spaces (k + 2)) ++ chainF (k + 2) k ((key, v) :: fs) rest) =
              '"' :: ((escChars key.data ++ ['"']) ++
              ((':' :: ' ' :: strVal (k + 2) v) ++
                (strObjRest (k + 2) fs ++ ('\n' :: (spaces k ++ (rbrace :: rest)))))) := by
            rw [skipWs_append (wsOnly_newline_spaces (k + 2)), hchain]
            exact skipWs_cons_of_not_ws (by decide)
          rw [pv_obj h1 h2 (by decide)]
          have hF := ihF ((key, v) :: fs) (k + 2) k [] rest (by simp)
            (by simp only [jsizeV] at hsz; omega) wsOnly_nil
          rw [List.nil_append, hchain] at hF
          rw [hF]
          rfl
    · -- array element chains
      intro es k k2 pre rest hne hsz hpre
      cases es with
      | nil => exact absurd rfl hne
      | cons e es =>
        have hv : parseVal fuel (pre ++ (strVal k e ++
            (strArrRest k es ++ ('\n' :: (spaces k2 ++ (']' :: rest)))))) =
            some (e, strArrRest k es ++ ('\n' :: (spaces k2 ++ (']' :: rest)))) := by
          apply ihV e k pre _ (by simp only [jsizeL] at hsz; omega) hpre
          cases es with
          | nil => exact nds_of_head (by decide)
          | cons e2 es2 => exact nds_of_head (by decide)
        cases es with
        | nil =>
          have h2 : skipWs (strArrRest k [] ++ ('\n' :: (spaces k2 ++ (']' :: rest)))) =
              ']' :: rest := by
            show skipWs ('\n' :: (spaces k2 ++ (']' :: rest))) = _
            show skipWs (('\n' :: spaces k2) ++ (']' :: rest)) = _
            rw [skipWs_append (wsOnly_newline_spaces k2)]
            exact skipWs_cons_of_not_ws (by decide)
          exact pe_close hv h2
        | cons e2 es2 =>
          have hrest2 : strArrRest k (e2 :: es2) ++ ('\n' :: (spaces k2 ++ (']' :: rest))) =
              ',' :: (('\n' :: spaces k) ++ chainE k k2 (e2 :: es2) rest) := by
            show ((',' :: '\n' :: spaces k) ++ strVal k e2 ++ strArrRest k es2) ++ _ = _
            simp [chainE, List.append_assoc]
          have h2 : skipWs (strArrRest k (e2 :: es2) ++ ('\n' :: (spaces k2 ++ (']' :: rest)))) =
              ',' :: (('\n' :: spaces k) ++ chainE k k2 (e2 :: es2) rest) := by
            rw [hrest2]
            exact skipWs_cons_of_not_ws (by decide)
          show parseElems (fuel + 1) (pre ++ (strVal k e ++
            (strArrRest k (e2 :: es2) ++ ('\n' :: (spaces k2 ++ (']' :: rest)))))) = _
          rw [pe_comma hv h2, ihE (e2 :: es2) k k2 ('\n' :: spaces k) rest (by simp)
            (by simp only [jsizeL] at hsz ⊢; omega) (wsOnly_newline_spaces k)]
          rfl
    · -- object field chains
      intro fs k k2 pre rest hne hsz hpre
      cases fs with
      | nil => exact absurd rfl hne
      | cons f fs =>
        obtain ⟨key, v⟩ := f
        have hchain : pre ++ chainF k k2 ((key, v) :: fs) rest = pre ++ ('"' ::
            ((escChars key.data ++ ['"']) ++ ((':' :: ' ' :: strVal k v) ++
              (strObjRest k fs ++ ('\n' :: (spaces k2 ++ (rbrace :: rest))))))) := by
          congr 1
          show (quoteChars key ++ (':' :: ' ' :: strVal k v)) ++ _ = _
          simp [quoteChars, List.append_assoc]
        have h1 : skipWs (pre ++ chainF k k2 ((key, v) :: fs) rest) =
            '"' :: ((escChars key.data ++ ['"']) ++ ((':' :: ' ' :: strVal k v) ++
              (strObjRest k fs ++ ('\n' :: (spaces k2 ++ (rbrace :: rest)))))) := by
          rw [hchain, skipWs_append hpre]
          exact skipWs_cons_of_not_ws (by decide)
        have hk : parseStrBody ((escChars key.data ++ ['"']) ++ ((':' :: ' ' :: strVal k v) ++
            (strObjRest k fs ++ ('\n' :: (spaces k2 ++ (rbrace :: rest)))))) =
            some (key.data, ':' :: ' ' :: (strVal k v ++
              (strObjRest k fs ++ ('\n' :: (spaces k2 ++ (rbrace :: rest)))))) := by
          rw [List.append_assoc, List.singleton_append, parseStrBody_escChars]
          rfl
        have hcolon : skipWs (':' :: ' ' :: (strVal k v ++
            (strObjRest k fs ++ ('\n' :: (spaces k2 ++ (rbrace :: rest)))))) =
            ':' :: (' ' :: (strVal k v ++
              (strObjRest k fs ++ ('\n' :: (spaces k2 ++ (rbrace :: rest)))))) :=
          skipWs_cons_of_not_ws (by decide)
        have hv : parseVal fuel (' ' :: (strVal k v ++
            (strObjRest k fs ++ ('\n' :: (spaces k2 ++ (rbrace :: rest)))))) =
            some (v, strObjRest k fs ++ ('\n' :: (spaces k2 ++ (rbrace :: rest)))) := by
          have hnd : NotDigitStart (strObjRest k fs ++
              ('\n' :: (spaces k2 ++ (rbrace :: rest)))) := by
            cases fs with
            | nil => exact nds_of_head (by decide)
            | cons f2 fs2 => exact nds_of_head (by decide)
          exact ihV v k [' '] _ (by simp only [jsizeF] at hsz; omega) wsOnly_space hnd
        cases fs with
        | nil =>
          have h2 : skipWs (strObjRest k [] ++ ('\n' :: (spaces k2 ++ (rbrace :: rest)))) =
              rbrace :: rest := by
            show skipWs (('\n' :: spaces k2) ++ (rbrace :: rest)) = _
            rw [skipWs_append (wsOnly_newline_spaces k2)]
            exact skipWs_cons_of_not_ws (by decide)
          exact pf_close h1 hk hcolon hv h2
        | cons f2 fs2 =>
          have hrest2 : strObjRest k (f2 :: fs2) ++ ('\n' :: (spaces k2 ++ (rbrace :: rest))) =
              ',' :: (('\n' :: spaces k) ++ chainF k k2 (f2 :: fs2) rest) := by
            show ((',' :: '\n' :: spaces k) ++ strField k f2 ++ strObjRest k fs2) ++ _ = _
            simp [chainF, List.append_assoc]
          have h2 : skipWs (strObjRest k (f2 :: fs2) ++
              ('\n' :: (spaces k2 ++ (rbrace :: rest)))) =
              ',' :: (('\n' :: spaces k) ++ chainF k k2 (f2 :: fs2) rest) := by
            rw [hrest2]
            exact skipWs_cons_of_not_ws (by decide)
          rw [pf_comma h1 hk hcolon hv h2, ihF (f2 :: fs2) k k2 ('\n' :: spaces k) rest (by simp)
            (by simp only [jsizeF] at hsz ⊢; omega) (wsOnly_newline_spaces k)]
          rfl
theorem spaces_length (k : Nat) : (spaces k).length = k := by
  induction k with
  | zero => rfl
  | succ k ih => simp [spaces, ih]

theorem intChars_length_pos (n : Int) : 1 ≤ (intChars n).length := by
  by_cases hn : n < 0
  · simp [intChars, hn]
  · obtain ⟨c, cs, hcs, _, _⟩ := natChars_head n.toNat
    simp [intChars, hn, hcs]

mutual

theorem jsizeV_le_len (k : Nat) (j : Json) : jsizeV j ≤ (strVal k j).length := by
  cases j with
  | null => simp [jsizeV, strVal]
  | bool b => cases b <;> simp [jsizeV, strVal]
  | num n =>
    have := intChars_length_pos n
    simp only [jsizeV, strVal]
    omega
  | str s => simp [jsizeV, strVal, quoteChars]
  | arr es =>
    cases es with
    | nil => simp [jsizeV, jsizeL, strVal]
    | cons e es =>
      have hA := jsizeV_le_len (k + 2) e
      have hB := jsizeL_le_len (k + 2) es
      simp only [jsizeV, jsizeL, strVal, List.length_append, List.length_cons]
      omega
  | obj fs =>
    cases fs with
    | nil => simp [jsizeV, jsizeF, strVal]
    | cons f fs =>
      have hD := jsizeField_le_len (k + 2) f
      have hC := jsizeF_le_len (k + 2) fs
      simp only [jsizeV, jsizeF, strVal, List.length_append, List.length_cons]
      omega

theorem jsizeL_le_len (k : Nat) (es : List Json) : jsizeL es ≤ (strArrRest k es).length := by
  cases es with
  | nil => simp [jsizeL, strArrRest]
  | cons e es =>
    have hA := jsizeV_le_len k e
    have hB := jsizeL_le_len k es
    simp only [jsizeL, strArrRest, List.length_append, List.length_cons]
    omega

theorem jsizeF_le_len (k : Nat) (fs : List (String × Json)) :
    jsizeF fs ≤ (strObjRest k fs).length := by
  cases fs with
  | nil => simp [jsizeF, strObjRest]
  | cons f fs =>
    have hD := jsizeField_le_len k f
    have hC := jsizeF_le_len k fs
    simp only [jsizeF, strObjRest, List.length_append, List.length_cons]
    omega

theorem jsizeField_le_len (k : Nat) (f : String × Json) :
    1 + jsizeV f.2 ≤ (strField k f).length := by
  obtain ⟨key, v⟩ := f
  have hA := jsizeV_le_len k v
  simp only [strField, quoteChars, List.length_append, List.length_cons]
  omega

end

/-- The full print/parse round trip behind the card store: `JSON.parse`
recovers exactly what `JSON.stringify(·, null, 2)` wrote. -/
theorem parseJson_stringify2 (j : Json) : parseJson (stringify2 j) = some j := by
  have hfuel : jsizeV j ≤ 2 * (strVal 0 j).length + 2 := by
    have := jsizeV_le_len 0 j
    omega
  have h := (masterRoundTrip (2 * (strVal 0 j).length + 2)).1 j 0 [] [] hfuel wsOnly_nil trivial
  rw [List.nil_append, List.append_nil] at h
  show (match parseVal (2 * (strVal 0 j).length + 2) (strVal 0 j) with
    | some (v, rest) => if skipWs rest = [] then some v else none
    | none => none) = some j
  rw [h]
  rfl
/-! ### Card store (`app.js`, `GET /api/cards` and `POST /api/cards`) -/

/-- The `{ success: b }` JSON body the card-store write handler sends. -/
def successJson (b : Bool) : Json := .obj [("success", .bool b)]

/-- `GET /api/cards` (app.js lines 79-86): read `data.json`, `JSON.parse` it
and send the parsed value; any read or parse error is caught and `[]` is sent.
`dataFile = none` models `readFileSync` throwing (file absent or unreadable). -/
def getCards (dataFile : Option String) : Json :=
  match dataFile with
  | none => .arr []
  | some text =>
    match parseJson text with
    | some j => j
    | none => .arr []

/-- `POST /api/cards` (app.js lines 88-95): overwrite `data.json` with
`JSON.stringify(req.body, null, 2)` and send `{success: true}`; if the write
throws (`writeOk = false`), the handler catches and sends `{success: false}`.
Returns the new file state and the response body. -/
def postCards (writeOk : Bool) (body : Json) (dataFile : Option String) :
    Option String × Json :=
  if writeOk then (some (stringify2 body), successJson true)
  else (dataFile, successJson false)

/-- A card of the dashboard's data model. -/
structure Card where
  id : Int
  title : String
  url : String
  color : String

/-- The JSON object a card serializes to (field order as the front end
builds it: id, title, url, color). -/
def cardToJson (c : Card) : Json :=
  .obj [("id", .num c.id), ("title", .str c.title), ("url", .str c.url),
    ("color", .str c.color)]

/-- A card collection as the JSON array the client posts. -/
def cardsToJson (cs : List Card) : Json := .arr (cs.map cardToJson)

/-- Decoder for a single card object (exact field shape). -/
def cardOfJson : Json → Option Card
  | .obj [("id", .num i), ("title", .str t), ("url", .str u), ("color", .str c)] =>
    some ⟨i, t, u, c⟩
  | _ => none

/-- Decoder for a card list. -/
def cardsOfJsonList : List Json → Option (List Card)
  | [] => some []
  | j :: js =>
    match cardOfJson j, cardsOfJsonList js with
    | some c, some cs => some (c :: cs)
    | _, _ => none

/-- Decoder for a card collection value. -/
def cardsOfJson : Json → Option (List Card)
  | .arr es => cardsOfJsonList es
  | _ => none

theorem cardOfJson_cardToJson (c : Card) : cardOfJson (cardToJson c) = some c := by
  obtain ⟨i, t, u, col⟩ := c
  rfl

theorem cardsOfJson_cardsToJson (cs : List Card) : cardsOfJson (cardsToJson cs) = some cs := by
  show cardsOfJsonList (cs.map cardToJson) = some cs
  induction cs with
  | nil => rfl
  | cons c cs ih => simp [List.map, cardsOfJsonList, cardOfJson_cardToJson, ih]

/-- Claim C1: after a successful `POST /api/cards` with a card array as body, a
`GET /api/cards` returns exactly that array: the i-th element is the JSON
object of the i-th card (order preserved), and decoding recovers every
id/title/url/color field value. -/
theorem claimC1_replace_then_load_roundTrip (cs : List Card) (prev : Option String) :
    getCards (postCards true (cardsToJson cs) prev).1 = Json.arr (cs.map cardToJson) ∧
    cardsOfJson (getCards (postCards true (cardsToJson cs) prev).1) = some cs := by
  have hload : getCards (postCards true (cardsToJson cs) prev).1 = cardsToJson cs := by
    show getCards (some (stringify2 (cardsToJson cs))) = _
    show (match parseJson (stringify2 (cardsToJson cs)) with
      | some j => j
      | none => Json.arr []) = _
    rw [parseJson_stringify2]
  exact ⟨hload, by rw [hload, cardsOfJson_cardsToJson]⟩

/-- Claim C5: `GET /api/cards` returns the empty array whenever the backing file is
absent or unreadable (`none`) or its text fails to parse as JSON; the handler
is a total function, so no error escapes to the caller. -/
theorem claimC5_load_errors_swallowed :
    (∀ s : String, parseJson s = none → getCards (some s) = Json.arr []) ∧
    getCards none = Json.arr [] := by
  refine ⟨fun s h => ?_, rfl⟩
  show (match parseJson s with
    | some j => j
    | none => Json.arr []) = Json.arr []
  rw [h]

theorem claimC5_witness :
    getCards (some "this is not json") = Json.arr [] ∧ getCards none = Json.arr [] :=
  ⟨claimC5_load_errors_swallowed.1 "this is not json" rfl,
    claimC5_load_errors_swallowed.2⟩

/-- Claim C10: `POST /api/cards` validates nothing: any JSON body — an object, a value
that is not an array, an array with duplicate card ids — is persisted verbatim
as the 2-space pretty-printed text, the handler reports `{success: true}`,
and a subsequent `GET /api/cards` returns exactly the stored value. -/
theorem claimC10_replace_no_validation (body : Json) (prev : Option String) :
    (postCards true body prev).1 = some (stringify2 body) ∧
    (postCards true body prev).2 = successJson true ∧
    getCards (postCards true body prev).1 = body := by
  refine ⟨rfl, rfl, ?_⟩
  show (match parseJson (stringify2 body) with
    | some j => j
    | none => Json.arr []) = body
  rw [parseJson_stringify2]
/-! ### Card id assignment (`build.sh`, `saveCardBtn` click handler) -/

/-- Id assigned to a newly added card (`build.sh` line 421):
`cards.length ? Math.max(...cards.map(c => c.id)) + 1 : 1`.
`Math.max` over a spread non-empty list is a fold of the binary max. -/
def newCardId (cards : List Card) : Int :=
  match cards with
  | [] => 1
  | c :: cs => (cs.foldl (fun m x => max m x.id) c.id) + 1

theorem foldl_max_ge_init (cs : List Card) (init : Int) :
    init ≤ cs.foldl (fun m x => max m x.id) init := by
  induction cs generalizing init with
  | nil => exact le_refl init
  | cons c cs ih =>
    calc init ≤ max init c.id := le_max_left _ _
    _ ≤ cs.foldl (fun m x => max m x.id) (max init c.id) := ih _

theorem foldl_max_ge_mem (cs : List Card) (c : Card) (hc : c ∈ cs) :
    ∀ init : Int, c.id ≤ cs.foldl (fun m x => max m x.id) init := by
  induction cs with
  | nil => cases hc
  | cons d ds ih =>
    intro init
    cases hc with
    | head =>
      show c.id ≤ ds.foldl (fun m x => max m x.id) (max init c.id)
      calc c.id ≤ max init c.id := le_max_right _ _
      _ ≤ ds.foldl (fun m x => max m x.id) (max init c.id) := foldl_max_ge_init ds _
    | tail _ h =>
      show c.id ≤ ds.foldl (fun m x => max m x.id) (max init d.id)
      exact ih h (max init d.id)

/-- Claim C9: a card added to an empty collection receives id 1; a card added
to a non-empty collection receives an id strictly greater than every existing
id, namely the maximum plus one — so with existing ids 1 and 3 the new id is
4, not the element count plus one (which would be 3). -/
theorem claimC9_newCardId_max_plus_one :
    newCardId [] = 1 ∧
    (∀ (cards : List Card) (c : Card), c ∈ cards → c.id < newCardId cards) ∧
    newCardId [⟨1, "a", "x", "g"⟩, ⟨3, "b", "y", "h"⟩] = 4 ∧
    (2 : Int) + 1 ≠ newCardId [⟨1, "a", "x", "g"⟩, ⟨3, "b", "y", "h"⟩] := by
  refine ⟨rfl, ?_, rfl, by decide⟩
  intro cards c hc
  cases cards with
  | nil => cases hc
  | cons d ds =>
    have hgoal : newCardId (d :: ds) = (ds.foldl (fun m x => max m x.id) d.id) + 1 := rfl
    rw [hgoal]
    cases hc with
    | head =>
      have := foldl_max_ge_init ds c.id
      omega
    | tail _ h =>
      have := foldl_max_ge_mem ds c h d.id
      omega

theorem claimC9_witness :
    (⟨3, "b", "y", "h"⟩ : Card).id < newCardId [⟨1, "a", "x", "g"⟩, ⟨3, "b", "y", "h"⟩] :=
  claimC9_newCardId_max_plus_one.2.1 [⟨1, "a", "x", "g"⟩, ⟨3, "b", "y", "h"⟩]
    ⟨3, "b", "y", "h"⟩ (by simp)
/-! ### A stable sort modelling `Array.prototype.sort` with a comparator
(stable per ECMAScript 2019).  Elements are inserted in original order;
an element moves past every accumulated element that may precede it, so equal
elements keep their original relative order. -/

/-- Insert `x` (originally later) into the sorted accumulator: skip past every
`y` that may come before `x` (`le y x`), place `x` before the first `y` that
may not. -/
def insertBy (le : α → α → Bool) (x : α) : List α → List α
  | [] => [x]
  | y :: ys => if le y x then y :: insertBy le x ys else x :: y :: ys

/-- Stable sort by the comparator-induced order. -/
def sortJs (le : α → α → Bool) (l : List α) : List α :=
  l.foldl (fun acc x => insertBy le x acc) []

theorem insertBy_perm (le : α → α → Bool) (x : α) :
    ∀ l : List α, List.Perm (insertBy le x l) (x :: l) := by
  intro l
  induction l with
  | nil => exact List.Perm.refl _
  | cons y ys ih =>
    show List.Perm (if le y x then y :: insertBy le x ys else x :: y :: ys) (x :: y :: ys)
    by_cases h : le y x
    · rw [if_pos h]
      exact List.Perm.trans (List.Perm.cons y ih) (List.Perm.swap x y ys)
    · rw [if_neg h]

theorem sortJs_go_perm (le : α → α → Bool) :
    ∀ (l acc : List α),
      List.Perm (l.foldl (fun acc x => insertBy le x acc) acc) (acc ++ l) := by
  intro l
  induction l with
  | nil => intro acc; simp
  | cons x xs ih =>
    intro acc
    show List.Perm (xs.foldl (fun acc x => insertBy le x acc) (insertBy le x acc)) (acc ++ x :: xs)
    refine List.Perm.trans (ih _) ?_
    refine List.Perm.trans ((insertBy_perm le x acc).append_right xs) ?_
    exact List.perm_middle.symm

theorem sortJs_perm (le : α → α → Bool) (l : List α) : List.Perm (sortJs le l) l :=
  sortJs_go_perm le l []

theorem mem_insertBy {le : α → α → Bool} {x z : α} {l : List α}
    (h : z ∈ insertBy le x l) : z = x ∨ z ∈ l := by
  have := (insertBy_perm le x l).mem_iff.mp h
  cases this with
  | head => exact Or.inl rfl
  | tail _ hm => exact Or.inr hm

theorem insertBy_sorted {le : α → α → Bool}
    (htot : ∀ a b, le a b = true ∨ le b a = true)
    (htrans : ∀ a b c, le a b = true → le b c = true → le a c = true)
    (x : α) : ∀ l : List α, l.Pairwise (fun a b => le a b = true) →
      (insertBy le x l).Pairwise (fun a b => le a b = true) := by
  intro l
  induction l with
  | nil => intro _; exact List.pairwise_singleton _ x
  | cons y ys ih =>
    intro hp
    rw [List.pairwise_cons] at hp
    obtain ⟨hy, hys⟩ := hp
    show (if le y x then y :: insertBy le x ys else x :: y :: ys).Pairwise _
    by_cases h : le y x
    · rw [if_pos h]
      rw [List.pairwise_cons]
      refine ⟨fun z hz => ?_, ih hys⟩
      cases mem_insertBy hz with
      | inl he => rw [he]; exact h
      | inr hm => exact hy z hm
    · rw [if_neg h]
      rw [List.pairwise_cons]
      have hxy : le x y = true := by
        cases htot x y with
        | inl hh => exact hh
        | inr hh => exact absurd hh h
      refine ⟨fun z hz => ?_, List.pairwise_cons.mpr ⟨hy, hys⟩⟩
      cases hz with
      | head => exact hxy
      | tail _ hm => exact htrans x y z hxy (hy z hm)

theorem sortJs_sorted {le : α → α → Bool}
    (htot : ∀ a b, le a b = true ∨ le b a = true)
    (htrans : ∀ a b c, le a b = true → le b c = true → le a c = true)
    (l : List α) : (sortJs le l).Pairwise (fun a b => le a b = true) := by
  suffices h : ∀ (xs acc : List α), acc.Pairwise (fun a b => le a b = true) →
      (xs.foldl (fun acc x => insertBy le x acc) acc).Pairwise (fun a b => le a b = true) from
    h l [] List.Pairwise.nil
  intro xs
  induction xs with
  | nil => intro acc h; exact h
  | cons x xs ih =>
    intro acc h
    exact ih _ (insertBy_sorted htot htrans x acc h)

/-! ### Log analyzer (`build.sh`, `parseAccessLogStats` / `updateStatsPanel`) -/

/-- A regex word character (`\w`), as the `\b` boundary assertion reads it. -/
def isWordChar (c : Char) : Bool :=
  ('a' ≤ c && c ≤ 'z') || ('A' ≤ c && c ≤ 'Z') || isDigitChar c || c = '_'

/-- Length of the leading run of decimal digits. -/
def digitRunLen : List Char → Nat
  | [] => 0
  | c :: cs => if isDigitChar c then 1 + digitRunLen cs else 0

/-- Match `\d{1,3}\.` at the head.  The greedy `\d{1,3}` must consume the
whole digit run (a shorter prefix would leave a digit where `.` is required),
so the run length must be 1–3 and must be followed by a literal dot. -/
def octetThenDot (l : List Char) : Option (List Char × List Char) :=
  let r := digitRunLen l
  if 1 ≤ r && r ≤ 3 then
    match l.drop r with
    | '.' :: rest => some (l.take r, rest)
    | _ => none
  else none

/-- Match the final `\d{1,3}\b`: the digit run must have length 1–3 and the
next character (if any) must not be a word character; backtracking to a
shorter run cannot help since the following character would be a digit. -/
def finalOctet (l : List Char) : Option (List Char) :=
  let r := digitRunLen l
  if 1 ≤ r && r ≤ 3 then
    match l.drop r with
    | [] => some (l.take r)
    | c :: _ => if isWordChar c then none else some (l.take r)
  else none

/-- Attempt of `(?:\d{1,3}\.){3}\d{1,3}\b` at the current position,
returning the matched token. -/
def matchQuadAt (l : List Char) : Option (List Char) :=
  match octetThenDot l with
  | none => none
  | some (d1, r1) =>
    match octetThenDot r1 with
    | none => none
    | some (d2, r2) =>
      match octetThenDot r2 with
      | none => none
      | some (d3, r3) =>
        match finalOctet r3 with
        | none => none
        | some d4 => some (d1 ++ '.' :: d2 ++ '.' :: d3 ++ '.' :: d4)

/-- Leftmost match of `/\b(?:\d{1,3}\.){3}\d{1,3}\b/` in the line: scan
positions left to right; at each position the leading `\b` holds when the
previous character (if any) is not a word character (the first matched
character is a digit, hence a word character). -/
def firstIpScan (prev : Option Char) : List Char → Option (List Char)
  | [] => none
  | c :: cs =>
    let boundaryOk := match prev with
      | none => true
      | some p => !isWordChar p
    if boundaryOk then
      match matchQuadAt (c :: cs) with
      | some tok => some tok
      | none => firstIpScan (some c) cs
    else firstIpScan (some c) cs

/-- Whitespace for the purposes of `String.prototype.trim`. -/
def isTrimWs (c : Char) : Bool :=
  c = ' ' || c = '\t' || c = '\n' || c = '\r' || c = Char.ofNat 12 || c = Char.ofNat 11

/-- Split a character list at every occurrence of `sep`
(`String.prototype.split` semantics: n separators give n+1 pieces). -/
def splitOnCharGo (sep : Char) (cur : List Char) : List Char → List (List Char)
  | [] => [cur.reverse]
  | c :: cs =>
    if c = sep then cur.reverse :: splitOnCharGo sep [] cs
    else splitOnCharGo sep (c :: cur) cs

/-- Split on a separator character. -/
def splitOnChar (sep : Char) (s : List Char) : List (List Char) :=
  splitOnCharGo sep [] s

/-- `ipCounts[ip] = (ipCounts[ip] || 0) + 1` over an insertion-ordered map. -/
def bumpCount (counts : List (String × Nat)) (ip : String) : List (String × Nat) :=
  if counts.any (fun p => p.1 == ip) then
    counts.map (fun p => if p.1 == ip then (p.1, p.2 + 1) else p)
  else counts ++ [(ip, 1)]

/-- The statistics `parseAccessLogStats` stores. -/
structure IpStats where
  total : Nat
  unique : Nat
  ipCounts : List (String × Nat)

/-- `parseAccessLogStats` (`build.sh` lines 584-589): split the raw text into
lines, keep lines with non-blank content, count them, extract the first
IPv4-shaped token of each line (skipping lines with none), and accumulate
per-token occurrence counts in insertion order. -/
def parseAccessLogStats (logText : String) : IpStats :=
  let lines := (splitOnChar '\n' logText.data).filter (fun l => !(l.all isTrimWs))
  let counts := lines.foldl (fun acc line =>
    match firstIpScan none line with
    | some tok => bumpCount acc ⟨tok⟩
    | none => acc) []
  { total := lines.length, unique := counts.length, ipCounts := counts }

/-- The top-IP ranking `updateStatsPanel` renders (`build.sh` lines 591-602):
entries in insertion order, stably sorted by descending count, first eight. -/
def topIpRanking (stats : IpStats) : List String :=
  ((sortJs (fun a b => decide (b.2 ≤ a.2)) stats.ipCounts).take 8).map (fun p => p.1)

/-- Claim C7: on the spec's three-line example log, the analyzer reports
3 total lines, 2 distinct IP tokens, the counts 1.2.3.4 ↦ 2 and 5.6.7.8 ↦ 1,
and the ranking lists 1.2.3.4 before 5.6.7.8. -/
theorem claimC7_analyzer_example :
    (parseAccessLogStats ("[2026/1/8 10:00:00] [IP: 1.2.3.4] [GET] /x - \"UA\"\n" ++
      "[2026/1/8 10:00:01] [IP: 1.2.3.4] [GET] /y - \"UA\"\n" ++
      "[2026/1/8 10:00:02] [IP: 5.6.7.8] [GET] /z - \"UA\"\n")).total = 3 ∧
    (parseAccessLogStats ("[2026/1/8 10:00:00] [IP: 1.2.3.4] [GET] /x - \"UA\"\n" ++
      "[2026/1/8 10:00:01] [IP: 1.2.3.4] [GET] /y - \"UA\"\n" ++
      "[2026/1/8 10:00:02] [IP: 5.6.7.8] [GET] /z - \"UA\"\n")).unique = 2 ∧
    (parseAccessLogStats ("[2026/1/8 10:00:00] [IP: 1.2.3.4] [GET] /x - \"UA\"\n" ++
      "[2026/1/8 10:00:01] [IP: 1.2.3.4] [GET] /y - \"UA\"\n" ++
      "[2026/1/8 10:00:02] [IP: 5.6.7.8] [GET] /z - \"UA\"\n")).ipCounts =
        [("1.2.3.4", 2), ("5.6.7.8", 1)] ∧
    topIpRanking (parseAccessLogStats ("[2026/1/8 10:00:00] [IP: 1.2.3.4] [GET] /x - \"UA\"\n" ++
      "[2026/1/8 10:00:01] [IP: 1.2.3.4] [GET] /y - \"UA\"\n" ++
      "[2026/1/8 10:00:02] [IP: 5.6.7.8] [GET] /z - \"UA\"\n")) =
        ["1.2.3.4", "5.6.7.8"] := by
  refine ⟨rfl, rfl, ?_, ?_⟩ <;> rfl
/-! ### Log catalog (`app.js`, `GET /api/logs/files`) -/

/-- `file.startsWith('access-')`. -/
def startsWithL (s pat : String) : Bool := pat.data.isPrefixOf s.data

/-- `file.endsWith('.log')`. -/
def endsWithL (s pat : String) : Bool := pat.data.isSuffixOf s.data

/-- The filter and the reader validation of `app.js`:
`f.startsWith('access-') && f.endsWith('.log')`. -/
def accessNamePat (f : String) : Bool := startsWithL f "access-" && endsWithL f ".log"

/-- `String.prototype.replace` with a plain-string pattern and empty
replacement: remove the first occurrence of `pat`, or return the input
unchanged when it does not occur. -/
def removeFirst : List Char → List Char → List Char
  | [], _ => []
  | c :: rest, pat =>
    if pat.isPrefixOf (c :: rest) then (c :: rest).drop pat.length
    else c :: removeFirst rest pat

/-- The sort key of the catalog comparator:
`name.replace('access-', '').replace('.log', '')`. -/
def dateKey (f : String) : String :=
  ⟨removeFirst (removeFirst f.data "access-".data) ".log".data⟩

/-- The comparator order: `a` may precede `b` when
`dateB.localeCompare(dateA) ≤ 0`, i.e. `dateKey b ≤ dateKey a`
(locale collation coincides with code-point order on these
digit-and-dash keys). -/
def fileLe (a b : String) : Bool := decide (dateKey b ≤ dateKey a)

/-- Response of `GET /api/logs/files`. -/
structure FilesResp where
  success : Bool
  files : List String
  message : Option String

/-- `GET /api/logs/files` (app.js lines 108-123): on a readable directory,
filter to `access-*.log` names and sort by the embedded date descending with
a stable comparator sort; if `readdirSync` throws (`dir = none`), answer
`success: false` with a message and no file list. -/
def logFilesHandler (dir : Option (List String)) : FilesResp :=
  match dir with
  | none => { success := false, files := [], message := some "获取日志文件列表失败" }
  | some files =>
    { success := true,
      files := sortJs fileLe (files.filter accessNamePat),
      message := none }

theorem fileLe_total (a b : String) : fileLe a b = true ∨ fileLe b a = true := by
  simp only [fileLe, decide_eq_true_eq]
  exact le_total (dateKey b) (dateKey a)

theorem fileLe_trans (a b c : String) (h1 : fileLe a b = true) (h2 : fileLe b c = true) :
    fileLe a c = true := by
  simp only [fileLe, decide_eq_true_eq] at h1 h2 ⊢
  exact le_trans h2 h1

/-- Claim C8: the catalog answers `success: true` with exactly the directory
entries matching `access-*.log` (a permutation of the filtered listing, so
exactly those names), ordered so that every file's embedded date key is ≥ the
next one's (descending string order, newest first); an empty directory gives
an empty list with `success: true`; a directory read error gives
`success: false` with no file list. -/
theorem claimC8_log_catalog (files : List String) :
    (logFilesHandler (some files)).success = true ∧
    List.Perm (logFilesHandler (some files)).files (files.filter accessNamePat) ∧
    ((logFilesHandler (some files)).files).Pairwise (fun a b => dateKey b ≤ dateKey a) ∧
    (∀ f, f ∈ (logFilesHandler (some files)).files ↔ f ∈ files ∧ accessNamePat f = true) ∧
    (logFilesHandler (some [])).files = [] ∧
    (logFilesHandler none).success = false ∧
    (logFilesHandler none).files = [] := by
  refine ⟨rfl, sortJs_perm fileLe (files.filter accessNamePat), ?_, ?_, rfl, rfl, rfl⟩
  · have hs := sortJs_sorted fileLe_total fileLe_trans (files.filter accessNamePat)
    refine hs.imp ?_
    intro a b h
    simpa [fileLe] using h
  · intro f
    show f ∈ sortJs fileLe (files.filter accessNamePat) ↔ _
    rw [(sortJs_perm fileLe (files.filter accessNamePat)).mem_iff, List.mem_filter]
/-! ### Log reader (`app.js`, `GET /api/logs/:filename`) -/

/-- Does the filename contain a path separator?  (Express percent-decodes
route parameters, so an encoded slash arrives in `req.params.filename`.) -/
def containsSlash (f : String) : Bool := f.data.any (fun c => c = '/')

/-- Segment-level normalization of `path.join`: empty and `.` segments vanish,
`..` pops the previous segment. -/
def normSegs (segs : List String) : List String :=
  segs.foldl (fun stack seg =>
    if seg = "" || seg = "." then stack
    else if seg = ".." then stack.dropLast
    else stack ++ [seg]) []

/-- `path.join(LOG_DIR, filename)` as normalized path segments: the log
directory's segments followed by the filename split at `/`, normalized. -/
def joinNorm (logDir : List String) (filename : String) : List String :=
  normSegs (logDir ++ (splitOnChar '/' filename.data).map (fun cs => (⟨cs⟩ : String)))

/-- Outcome of the log-reader handler: HTTP status and the filesystem path it
read, `none` when it performed no filesystem access. -/
structure ReaderOutcome where
  status : Nat
  fsRead : Option (List String)

/-- `GET /api/logs/:filename` (app.js lines 126-138): if the name fails the
`access-*.log` shape check, answer 400 and never touch the filesystem; else
`fs.readFile(path.join(LOG_DIR, filename))` — 404 when the read errors,
200 with the text otherwise. -/
def logReader (logDir : List String) (filename : String)
    (fileContent : Option String) : ReaderOutcome :=
  if accessNamePat filename then
    match fileContent with
    | none => { status := 404, fsRead := some (joinNorm logDir filename) }
    | some _ => { status := 200, fsRead := some (joinNorm logDir filename) }
  else { status := 400, fsRead := none }

/-- Every filename failing the shape check is rejected with 400 before any
filesystem access, whatever the directory and file state. -/
theorem logReader_rejects_invalid (logDir : List String) (filename : String)
    (fileContent : Option String) (h : accessNamePat filename = false) :
    logReader logDir filename fileContent = { status := 400, fsRead := none } := by
  simp [logReader, h]

theorem logReader_rejects_traversal_attempt :
    accessNamePat "../../etc/passwd" = false ∧
    logReader ["app", "logs"] "../../etc/passwd" none = { status := 400, fsRead := none } :=
  ⟨rfl, logReader_rejects_invalid _ _ _ rfl⟩

/-- Claim C2: the validation is only a prefix/suffix shape check, so it does
not reject every filename containing a path separator: the concrete name
below (the `access-` prefix, then `/../../secret/x.log`) contains slashes,
passes validation, and drives a filesystem read that resolves outside the
log directory. -/
theorem claimC2_separator_name_passes_validation :
    containsSlash "access-/../../secret/x.log" = true ∧
    accessNamePat "access-/../../secret/x.log" = true ∧
    (logReader ["app", "logs"] "access-/../../secret/x.log" none).fsRead =
      some ["app", "secret", "x.log"] ∧
    (logReader ["app", "logs"] "access-/../../secret/x.log" none).status = 404 ∧
    ["app", "logs"].isPrefixOf ["app", "secret", "x.log"] = false := by
  refine ⟨rfl, rfl, rfl, rfl, by decide⟩
/-! ### Request pipeline (`app.js`, logging middleware and error middleware) -/

/-- An HTTP response produced by the JSON-speaking layers of the app. -/
structure HttpResp where
  status : Nat
  body : Json

/-- What one middleware invocation does: pass on, pass on with an error
(a synchronous throw is routed by Express to error middleware), or respond. -/
inductive MwStep where
  | next : MwStep
  | nextErr : MwStep
  | respond (r : HttpResp) : MwStep

/-- The request state the modelled layers read. -/
structure Req where
  path : String
  fsAppendOk : Bool
  dataFile : Option String

/-- A layer of the Express stack: a plain middleware/route, or an
error-handling middleware (4-ary handler). -/
inductive Layer where
  | mw (run : Req → MwStep) : Layer
  | errMw (run : Req → MwStep) : Layer

/-- Express dispatch: with no active error, run plain layers in order and skip
error layers; once an error is active, skip plain layers and run the next
error layer.  `none` models falling through to the framework's default
finalizer. -/
def dispatch : List Layer → Req → Bool → Option HttpResp
  | [], _, _ => none
  | .mw run :: rest, req, errActive =>
    if errActive then dispatch rest req errActive
    else
      match run req with
      | .next => dispatch rest req false
      | .nextErr => dispatch rest req true
      | .respond r => some r
  | .errMw run :: rest, req, errActive =>
    if errActive then
      match run req with
      | .next => dispatch rest req false
      | .nextErr => dispatch rest req true
      | .respond r => some r
    else dispatch rest req false

/-- The 500 body the error middleware sends (app.js lines 56-58). -/
def serverErrJson : Json := .obj [("success", .bool false), ("message", .str "服务器错误")]

/-- The app's stack in registration order (app.js lines 10-86): body parser,
the access-log middleware (`writeAccessLog(req); next()` with no try/catch,
so a throwing `appendFileSync` becomes a pipeline error), the error
middleware, the static middleware, and the `GET /api/cards` route. -/
def appLayers : List Layer :=
  [ .mw (fun _ => .next),
    .mw (fun req => if req.fsAppendOk then .next else .nextErr),
    .errMw (fun _ => .respond { status := 500, body := serverErrJson }),
    .mw (fun _ => .next),
    .mw (fun req =>
      if req.path = "/api/cards" then .respond { status := 200, body := getCards req.dataFile }
      else .next) ]

/-- Handling of one inbound request. -/
def handleRequest (req : Req) : Option HttpResp := dispatch appLayers req false

/-- Claim C6 (evaluating the code at the failing input): when the log append
throws, a `GET /api/cards` request is answered by the error middleware with
status 500 and never reaches the cards handler — whereas the same request
with a working log append reaches the handler and gets its 200 response.
So the success path does depend on the log append. -/
theorem claimC6_log_failure_aborts_request :
    handleRequest { path := "/api/cards", fsAppendOk := false, dataFile := some "[]" } =
      some { status := 500, body := serverErrJson } ∧
    handleRequest { path := "/api/cards", fsAppendOk := true, dataFile := some "[]" } =
      some { status := 200, body := .arr [] } ∧
    (some { status := 500, body := serverErrJson } : Option HttpResp) ≠
      some { status := 200, body := .arr [] } := by
  refine ⟨rfl, rfl, ?_⟩
  intro h
  have : (500 : Nat) = 200 := congrArg (fun o => match o with
    | some r => r.status
    | none => 0) h
  omega
/-! ### Remote sync (`sync.js`) -/

/-- Does `pat` occur in `s`?  (`String.prototype.includes`.) -/
def hasSubChars : List Char → List Char → Bool
  | [], pat => pat.isEmpty
  | c :: rest, pat => pat.isPrefixOf (c :: rest) || hasSubChars rest pat

/-- `s.includes(pat)`. -/
def strIncludes (s pat : String) : Bool := hasSubChars s.data pat.data

/-- Outcome of one HTTPS exchange as the `githubRequest` callback sees it:
a connection-level error, or a response with status code and raw body. -/
inductive HttpOutcome where
  | netErr (msg : String) : HttpOutcome
  | resp (status : Nat) (body : String) : HttpOutcome

/-- How a `githubRequest` call fails: `thrown` is a promise rejection whose
message reaches `sync`'s catch (connection errors and `status >= 400`
responses); `crash` is `JSON.parse` throwing inside the response callback,
which never reaches the catch but still terminates the process with a
non-zero code. -/
inductive SyncErr where
  | thrown (msg : String) : SyncErr
  | crash : SyncErr

/-- The rejection message `githubRequest` builds for an error response:
the template literal around the status code and raw body. -/
def apiErrMsg (status : Nat) (body : String) : String :=
  ⟨"API 错误 [".data ++ natChars status ++ "]：".data ++ body.data⟩

/-- `githubRequest` (sync.js lines 24-56): reject on connection error; reject
with the templated message when the status is at least 400; otherwise
`JSON.parse(responseBody || '{}')`, whose failure is an uncaught throw. -/
def githubRequest (o : HttpOutcome) : Except SyncErr Json :=
  match o with
  | .netErr m => .error (.thrown m)
  | .resp status body =>
    if 400 ≤ status then .error (.thrown (apiErrMsg status body))
    else
      match parseJson (if body = "" then "\x7b\x7d" else body) with
      | some j => .ok j
      | none => .error .crash

/-- JavaScript truthiness of a JSON value (the `if (remoteFileInfo)` test). -/
def jsTruthy : Json → Bool
  | .null => false
  | .bool b => b
  | .num n => decide (n ≠ 0)
  | .str s => decide (s ≠ "")
  | .arr _ => true
  | .obj _ => true

/-- JavaScript property read `j.key` on a parsed JSON value: `undefined`
(here `none`) unless `j` is an object with the field; `JSON.parse` keeps the
last of duplicate keys. -/
def jGetField (j : Json) (key : String) : Option Json :=
  match j with
  | .obj fields => (fields.reverse.find? (fun f => f.1 == key)).map (fun f => f.2)
  | _ => none

/-- UTF-8 bytes of a character sequence (`Buffer.from(localData)`). -/
def utf8Bytes : List Char → List Nat
  | [] => []
  | c :: cs =>
    (if c.toNat < 128 then [c.toNat]
     else if c.toNat < 2048 then [192 + c.toNat / 64, 128 + c.toNat % 64]
     else if c.toNat < 65536 then
       [224 + c.toNat / 4096, 128 + (c.toNat / 64) % 64, 128 + c.toNat % 64]
     else
       [240 + c.toNat / 262144, 128 + (c.toNat / 4096) % 64,
        128 + (c.toNat / 64) % 64, 128 + c.toNat % 64]) ++ utf8Bytes cs

/-- A base64 alphabet character. -/
def b64Char (n : Nat) : Char :=
  if n < 26 then Char.ofNat (65 + n)
  else if n < 52 then Char.ofNat (97 + (n - 26))
  else if n < 62 then Char.ofNat (48 + (n - 52))
  else if n = 62 then '+'
  else '/'

/-- Base64 encoding of a byte list, three bytes at a time with `=` padding. -/
def b64Chunks : List Nat → List Char
  | [] => []
  | [a] => [b64Char (a / 4), b64Char (a % 4 * 16), '=', '=']
  | [a, b] => [b64Char (a / 4), b64Char (a % 4 * 16 + b / 16), b64Char (b % 16 * 4), '=']
  | a :: b :: c :: rest =>
    b64Char (a / 4) :: b64Char (a % 4 * 16 + b / 16) ::
      b64Char (b % 16 * 4 + c / 64) :: b64Char (c % 64) :: b64Chunks rest

/-- `Buffer.from(localData).toString('base64')`. -/
def base64 (s : String) : String := ⟨b64Chunks (utf8Bytes s.data)⟩

/-- The commit payload of step 3 of `sync` (sync.js lines 82-91); `sha` is
`none` when the property is absent or `undefined` (either way the serialized
payload omits it). -/
structure CommitData where
  message : String
  content : String
  branch : String
  sha : Option Json

/-- The world `sync` runs against: the local file read, the timestamp, and
the two HTTP exchanges. -/
structure SyncEnv where
  localData : Option String
  nowStr : String
  fetchOutcome : HttpOutcome
  putOutcome : HttpOutcome

/-- The observable outcome: the process exit code, and the payload submitted
to the create-or-update call when that call was reached. -/
structure SyncResult where
  exitCode : Nat
  putPayload : Option CommitData

/-- `sync` (sync.js lines 59-101): read the local document (failing fatally if
unreadable or empty), fetch remote metadata treating an error whose message
contains `[404]` as "no remote file", build the commit payload (including
`remoteFileInfo.sha` only when `remoteFileInfo` is truthy), then submit the
PUT; every other failure ends the process with exit code 1. -/
def syncRun (env : SyncEnv) : SyncResult :=
  match env.localData with
  | none => { exitCode := 1, putPayload := none }
  | some localData =>
    if localData = "" then { exitCode := 1, putPayload := none }
    else
      match
        (match githubRequest env.fetchOutcome with
         | .ok j => Except.ok (some j)
         | .error (.thrown m) =>
           if strIncludes m "[404]" then Except.ok none else Except.error (SyncErr.thrown m)
         | .error .crash => Except.error SyncErr.crash : Except SyncErr (Option Json))
      with
      | .error _ => { exitCode := 1, putPayload := none }
      | .ok remoteFileInfo =>
        let commitData : CommitData :=
          { message := "Update data.json - " ++ env.nowStr
            content := base64 localData
            branch := "main"
            sha :=
              match remoteFileInfo with
              | none => none
              | some info => if jsTruthy info then jGetField info "sha" else none }
        match githubRequest env.putOutcome with
        | .ok _ => { exitCode := 0, putPayload := some commitData }
        | .error _ => { exitCode := 1, putPayload := some commitData }
theorem apiErrMsg_404_includes (b : String) : strIncludes (apiErrMsg 404 b) "[404]" = true := by
  simp [apiErrMsg, strIncludes, natChars, natCharsGo, digitChar, hasSubChars, List.isPrefixOf]

/-- Claim C3: when the metadata fetch answers 404 (whatever the body), the
submitted commit payload omits the sha field; when it answers success with a
truthy JSON object carrying a `sha` field, the payload contains exactly that
value. -/
theorem claimC3_sha_inclusion :
    (∀ (d now b : String) (put : HttpOutcome), d ≠ "" →
      ∃ cd, (syncRun ⟨some d, now, .resp 404 b, put⟩).putPayload = some cd ∧
        cd.sha = none) ∧
    (∀ (d now b : String) (put : HttpOutcome) (status : Nat) (meta v : Json), d ≠ "" →
      status < 400 →
      parseJson (if b = "" then "\x7b\x7d" else b) = some meta →
      jsTruthy meta = true →
      jGetField meta "sha" = some v →
      ∃ cd, (syncRun ⟨some d, now, .resp status b, put⟩).putPayload = some cd ∧
        cd.sha = some v) := by
  constructor
  · intro d now b put hd
    have hgr : githubRequest (.resp 404 b) =
        .error (.thrown (apiErrMsg 404 b)) := by
      simp [githubRequest]
    refine ⟨{ message := ("Update data.json - " ++ now),
              content := base64 d,
              branch := "main", sha := none }, ?_, rfl⟩
    simp only [syncRun, if_neg hd, hgr, apiErrMsg_404_includes, if_true]
    cases hput : githubRequest put <;> rfl
  · intro d now b put status meta v hd hst hparse htruthy hsha
    have hgr : githubRequest (.resp status b) = .ok meta := by
      simp [githubRequest, Nat.not_le.mpr hst, hparse]
    refine ⟨{ message := ("Update data.json - " ++ now),
              content := base64 d,
              branch := "main", sha := some v }, ?_, rfl⟩
    simp only [syncRun, if_neg hd, hgr, htruthy, if_true, hsha]
    cases hput : githubRequest put <;> rfl

theorem claimC3_witness :
    (∃ cd, (syncRun ⟨some "x", "t", .resp 404 "nf", .resp 200 ""⟩).putPayload = some cd ∧
      cd.sha = none) ∧
    (∃ cd, (syncRun ⟨some "x", "t", .resp 200 "\x7b\"sha\":\"abc\"\x7d",
        .resp 200 ""⟩).putPayload = some cd ∧
      cd.sha = some (.str "abc")) :=
  ⟨claimC3_sha_inclusion.1 "x" "t" "nf" (.resp 200 "") (by decide),
   claimC3_sha_inclusion.2 "x" "t" "\x7b\"sha\":\"abc\"\x7d" (.resp 200 "") 200
     (.obj [("sha", .str "abc")]) (.str "abc") (by decide) (by omega) rfl rfl rfl⟩
/-- Did the local read step succeed (file readable and non-empty)? -/
def localOk (env : SyncEnv) : Bool :=
  match env.localData with
  | none => false
  | some d => decide (d ≠ "")

/-- Did the metadata fetch leave `sync` on its success path?  That is: the
request resolved, or it failed with a thrown message containing `[404]`
(which `sync` converts to "create new"); a parse crash never does. -/
def fetchPhaseOk (env : SyncEnv) : Bool :=
  match githubRequest env.fetchOutcome with
  | .ok _ => true
  | .error (.thrown m) => strIncludes m "[404]"
  | .error .crash => false

/-- Did the create-or-update call succeed? -/
def putPhaseOk (env : SyncEnv) : Bool :=
  match githubRequest env.putOutcome with
  | .ok _ => true
  | .error _ => false

/-- Claim C4 (amended): the run has exactly two outcomes (exit 0 or exit 1);
it succeeds exactly when the local read, the fetch phase and the PUT phase
all succeed — where a fetch failure counts as success only when its thrown
message contains `[404]` (responses with status below 400, including 3xx,
resolve successfully) — and whenever the local read or the fetch phase fails,
the run aborts with exit 1 before submitting any payload. -/
theorem claimC4_failures_abort (env : SyncEnv) :
    ((syncRun env).exitCode = 0 ∨ (syncRun env).exitCode = 1) ∧
    ((syncRun env).exitCode = 0 ↔
      (localOk env = true ∧ fetchPhaseOk env = true ∧ putPhaseOk env = true)) ∧
    ((localOk env = false ∨ fetchPhaseOk env = false) →
      syncRun env = { exitCode := 1, putPayload := none }) := by
  obtain ⟨ld, now, fo, po⟩ := env
  cases ld with
  | none =>
    refine ⟨Or.inr rfl, ?_, fun _ => rfl⟩
    simp [syncRun, localOk]
  | some d =>
    by_cases hd : d = ""
    · subst hd
      refine ⟨Or.inr rfl, ?_, fun _ => rfl⟩
      simp [syncRun, localOk]
    · have hlocal : localOk ⟨some d, now, fo, po⟩ = true := by
        simp [localOk, hd]
      cases hfo : githubRequest fo with
      | ok j =>
        have hfetch : fetchPhaseOk ⟨some d, now, fo, po⟩ = true := by
          simp [fetchPhaseOk, hfo]
        cases hpo : githubRequest po with
        | ok w =>
          have hput : putPhaseOk ⟨some d, now, fo, po⟩ = true := by
            simp [putPhaseOk, hpo]
          refine ⟨Or.inl ?_, ?_, ?_⟩
          · simp [syncRun, hd, hfo, hpo]
          · simp [syncRun, hd, hfo, hpo, hlocal, hfetch, hput]
          · intro h
            rw [hlocal, hfetch] at h
            rcases h with h | h <;> cases h
        | error e =>
          have hput : putPhaseOk ⟨some d, now, fo, po⟩ = false := by
            simp [putPhaseOk, hpo]
          refine ⟨Or.inr ?_, ?_, ?_⟩
          · simp [syncRun, hd, hfo, hpo]
          · simp [syncRun, hd, hfo, hpo, hput]
          · intro h
            rw [hlocal, hfetch] at h
            rcases h with h | h <;> cases h
      | error e =>
        cases e with
        | thrown m =>
          by_cases hm : strIncludes m "[404]" = true
          · have hfetch : fetchPhaseOk ⟨some d, now, fo, po⟩ = true := by
              simp [fetchPhaseOk, hfo, hm]
            cases hpo : githubRequest po with
            | ok w =>
              have hput : putPhaseOk ⟨some d, now, fo, po⟩ = true := by
                simp [putPhaseOk, hpo]
              refine ⟨Or.inl ?_, ?_, ?_⟩
              · simp [syncRun, hd, hfo, hm, hpo]
              · simp [syncRun, hd, hfo, hm, hpo, hlocal, hfetch, hput]
              · intro h
                rw [hlocal, hfetch] at h
                rcases h with h | h <;> cases h
            | error e2 =>
              have hput : putPhaseOk ⟨some d, now, fo, po⟩ = false := by
                simp [putPhaseOk, hpo]
              refine ⟨Or.inr ?_, ?_, ?_⟩
              · simp [syncRun, hd, hfo, hm, hpo]
              · simp [syncRun, hd, hfo, hm, hpo, hput]
              · intro h
                rw [hlocal, hfetch] at h
                rcases h with h | h <;> cases h
          · have hm' : strIncludes m "[404]" = false := by
              simpa using hm
            have hfetch : fetchPhaseOk ⟨some d, now, fo, po⟩ = false := by
              simp [fetchPhaseOk, hfo, hm']
            refine ⟨Or.inr ?_, ?_, fun _ => ?_⟩
            · simp [syncRun, hd, hfo, hm']
            · simp [syncRun, hd, hfo, hm', hfetch]
            · simp [syncRun, hd, hfo, hm']
        | crash =>
          have hfetch : fetchPhaseOk ⟨some d, now, fo, po⟩ = false := by
            simp [fetchPhaseOk, hfo]
          refine ⟨Or.inr ?_, ?_, fun _ => ?_⟩
          · simp [syncRun, hd, hfo]
          · simp [syncRun, hd, hfo, hfetch]
          · simp [syncRun, hd, hfo]

theorem claimC4_witness :
    syncRun ⟨some "x", "t", .netErr "boom", .resp 200 ""⟩ =
      { exitCode := 1, putPayload := none } :=
  (claimC4_failures_abort ⟨some "x", "t", .netErr "boom", .resp 200 ""⟩).2.2 (Or.inr rfl)

/-- Claim C4, counterexample to the claim as stated: a metadata-fetch response
with status 301 — a non-2xx response that is not the not-found response — does
not abort the run: with it the whole sync reports success (exit code 0). -/
theorem claimC4_counterexample :
    (syncRun ⟨some "x", "t", .resp 301 "", .resp 200 ""⟩).exitCode = 0 ∧
    (301 < 200 ∨ 299 < 301) ∧ (301 : Nat) ≠ 404 :=
  ⟨rfl, Or.inr (by omega), by omega⟩
